import Mathlib

/-!
Verification of the hugepage-aware allocator core (`huge_page_filler.h`,
`huge_region.h`) against its specification.

Shallow embedding conventions:
* A bitmap over `P` pages is a function `Nat → Bool`; only indices `< P` are
  meaningful.  Page ids are offsets from the start of the tracked huge page.
* The leaf containers `Bitmap<N>` / `RangeTracker<N>` / `TimeSeriesTracker` /
  `HintedTrackerLists` live in `internal/range_tracker.h`,
  `internal/timeseries_tracker.h` and `hinted_tracker_lists.h`, which are not
  part of this snapshot; they are modelled from the specification (each such
  definition is marked `Modelled from the spec:`).
* Loops whose index strictly advances toward a bound `P` are written with an
  explicit fuel argument; fuel `≥ P` is always sufficient and the top-level
  wrappers supply it.
-/

namespace TCM

/-- Modelled from the spec: `Bitmap<N>` find operation.  Least index `j` with
`i ≤ j < i + fuel` and `p j = true`, scanning linearly. -/
def findFromAux (p : Nat → Bool) : Nat → Nat → Option Nat
  | 0, _ => none
  | fuel + 1, i => if p i then some i else findFromAux p fuel (i + 1)

/-- Modelled from the spec: least set index in `[i, P)`, or `none`. -/
def findFrom (p : Nat → Bool) (P i : Nat) : Option Nat :=
  findFromAux p (P - i) i

/-- Modelled from the spec: length of the maximal run of set bits starting at
`i`, truncated after `fuel` steps. -/
def runLenAux (p : Nat → Bool) : Nat → Nat → Nat
  | 0, _ => 0
  | fuel + 1, i => if p i then runLenAux p fuel (i + 1) + 1 else 0

/-- Modelled from the spec: length of the maximal run of set bits of `p`
starting at `i`, staying below `P`. -/
def runLen (p : Nat → Bool) (P i : Nat) : Nat :=
  runLenAux p (P - i) i

/-- Modelled from the spec: `NextFreeRange(from) → (offset, len)` of
`RangeTracker`/`Bitmap`: the first index `≥ from` where `p` holds together
with the length of the maximal `p`-run from there. -/
def nextRange (p : Nat → Bool) (P i : Nat) : Option (Nat × Nat) :=
  match findFrom p P i with
  | none => none
  | some j => some (j, runLen p P j)

/-- Modelled from the spec: `Bitmap::CountBits(i, n)` — number of set bits in
`[i, i + n)`. -/
def countTrue (p : Nat → Bool) (i n : Nat) : Nat :=
  (List.range n).countP fun k => p (i + k)

/-- Modelled from the spec: `Bitmap::SetRange(i, n)`. -/
def setRange (p : Nat → Bool) (i n : Nat) : Nat → Bool := fun j =>
  if i ≤ j ∧ j < i + n then true else p j

/-- Modelled from the spec: `Bitmap::ClearRange(i, n)`. -/
def clearRange (p : Nat → Bool) (i n : Nat) : Nat → Bool := fun j =>
  if i ≤ j ∧ j < i + n then false else p j

/-- The list of maximal `p`-runs `(start, len)` at positions `≥ i`, found by
iterating `nextRange`; `fuel` bounds the number of runs. -/
def runsAux (p : Nat → Bool) (P : Nat) : Nat → Nat → List (Nat × Nat)
  | 0, _ => []
  | fuel + 1, i =>
    match nextRange p P i with
    | none => []
    | some (j, n) => (j, n) :: runsAux p P fuel (j + n)

/-- All maximal runs of `p` below `P`, left to right. -/
def runsOf (p : Nat → Bool) (P : Nat) : List (Nat × Nat) :=
  runsAux p P P 0

/-- Modelled from the spec: `RangeTracker::longest_free()` — the length of the
longest maximal run of `p` below `P`. -/
def longestRun (p : Nat → Bool) (P : Nat) : Nat :=
  (runsOf p P).foldr (fun r m => max r.2 m) 0

/-- Modelled from the spec: the search of `RangeTracker::FindAndMark(n)` —
offset of the leftmost maximal free run of length `≥ n` (`p` = "free"). -/
def findRunAux (p : Nat → Bool) (P n : Nat) : Nat → Nat → Option Nat
  | 0, _ => none
  | fuel + 1, i =>
    match nextRange p P i with
    | none => none
    | some (j, len) => if n ≤ len then some j else findRunAux p P n fuel (j + len)

/-- Leftmost start of a free run of length `≥ n` (`p` = "free"). -/
def findRun (p : Nat → Bool) (P n : Nat) : Option Nat :=
  findRunAux p P n P 0

/-! ### Basic lemmas about the scanning primitives -/

theorem findFromAux_eq_some {p : Nat → Bool} {fuel i j : Nat}
    (h : findFromAux p fuel i = some j) :
    i ≤ j ∧ j < i + fuel ∧ p j = true ∧ ∀ k, i ≤ k → k < j → p k = false := by
  induction fuel generalizing i with
  | zero => simp [findFromAux] at h
  | succ fuel ih =>
    rw [findFromAux] at h
    by_cases hp : p i
    · simp [hp] at h
      subst h
      exact ⟨le_refl _, by omega, hp, fun k hk hk' => absurd hk (by omega)⟩
    · simp [hp] at h
      obtain ⟨h1, h2, h3, h4⟩ := ih h
      refine ⟨by omega, by omega, h3, fun k hk hk' => ?_⟩
      rcases Nat.eq_or_lt_of_le hk with rfl | hlt
      · exact Bool.eq_false_iff.mpr hp
      · exact h4 k hlt hk'

theorem findFromAux_eq_none {p : Nat → Bool} {fuel i : Nat}
    (h : findFromAux p fuel i = none) :
    ∀ k, i ≤ k → k < i + fuel → p k = false := by
  induction fuel generalizing i with
  | zero => intro k hk hk'; omega
  | succ fuel ih =>
    rw [findFromAux] at h
    by_cases hp : p i
    · simp [hp] at h
    · simp [hp] at h
      intro k hk hk'
      rcases Nat.eq_or_lt_of_le hk with rfl | hlt
      · exact Bool.eq_false_iff.mpr hp
      · exact ih h k hlt (by omega)

theorem findFromAux_of_true {p : Nat → Bool} {fuel i j : Nat}
    (hj : i ≤ j) (hj' : j < i + fuel) (hp : p j = true) :
    ∃ j', findFromAux p fuel i = some j' ∧ j' ≤ j := by
  cases h : findFromAux p fuel i with
  | none => exact absurd (findFromAux_eq_none h j hj hj') (by simp [hp])
  | some j' =>
    refine ⟨j', rfl, ?_⟩
    by_contra hlt
    obtain ⟨h1, h2, h3, h4⟩ := findFromAux_eq_some h
    exact absurd (h4 j hj (by omega)) (by simp [hp])

theorem findFrom_eq_some {p : Nat → Bool} {P i j : Nat}
    (h : findFrom p P i = some j) :
    i ≤ j ∧ j < P ∧ p j = true ∧ ∀ k, i ≤ k → k < j → p k = false := by
  obtain ⟨h1, h2, h3, h4⟩ := findFromAux_eq_some h
  exact ⟨h1, by omega, h3, h4⟩

theorem findFrom_eq_none {p : Nat → Bool} {P i : Nat}
    (h : findFrom p P i = none) :
    ∀ k, i ≤ k → k < P → p k = false := by
  intro k hk hk'
  exact findFromAux_eq_none h k hk (by omega)

theorem findFrom_of_true {p : Nat → Bool} {P i j : Nat}
    (hj : i ≤ j) (hj' : j < P) (hp : p j = true) :
    ∃ j', findFrom p P i = some j' ∧ j' ≤ j :=
  findFromAux_of_true hj (by omega) hp

theorem runLenAux_spec {p : Nat → Bool} {fuel i : Nat} :
    runLenAux p fuel i ≤ fuel ∧
      (∀ k, k < runLenAux p fuel i → p (i + k) = true) ∧
      (runLenAux p fuel i < fuel → p (i + runLenAux p fuel i) = false) := by
  induction fuel generalizing i with
  | zero =>
    refine ⟨?_, ?_, ?_⟩ <;> simp [runLenAux]
  | succ fuel ih =>
    rw [runLenAux]
    cases hp : p i with
    | true =>
      rw [if_pos rfl]
      obtain ⟨h1, h2, h3⟩ := @ih (i + 1)
      refine ⟨by omega, fun k hk => ?_, fun h => ?_⟩
      · cases k with
        | zero => simpa using hp
        | succ k =>
          have := h2 k (by omega)
          simpa [Nat.add_assoc, Nat.add_comm 1 k] using this
      · have := h3 (by omega)
        simpa [Nat.add_assoc, Nat.add_comm 1 (runLenAux p fuel (i + 1))] using this
    | false =>
      rw [if_neg (by simp)]
      exact ⟨by omega, fun k hk => absurd hk (by omega), fun _ => by simpa using hp⟩

theorem runLen_le {p : Nat → Bool} {P i : Nat} : i + runLen p P i ≤ i + (P - i) := by
  have h := (@runLenAux_spec p (P - i) i).1
  have he : runLen p P i = runLenAux p (P - i) i := rfl
  omega

theorem runLen_true {p : Nat → Bool} {P i : Nat} :
    ∀ k, k < runLen p P i → p (i + k) = true :=
  (@runLenAux_spec p (P - i) i).2.1

theorem runLen_end {p : Nat → Bool} {P i : Nat} (h : i + runLen p P i < P) :
    p (i + runLen p P i) = false := by
  have he : runLen p P i = runLenAux p (P - i) i := rfl
  have hs := (@runLenAux_spec p (P - i) i).2.2
  rw [he]
  exact hs (by omega)

theorem runLen_pos {p : Nat → Bool} {P i : Nat} (hi : i < P) (hp : p i = true) :
    0 < runLen p P i := by
  by_contra h
  have h0 : runLen p P i = 0 := by omega
  have := runLen_end (p := p) (P := P) (i := i) (by omega)
  rw [h0] at this
  simp at this
  exact absurd hp (by simp [this])

theorem nextRange_eq_none {p : Nat → Bool} {P i : Nat}
    (h : nextRange p P i = none) :
    ∀ k, i ≤ k → k < P → p k = false := by
  intro k hk hk'
  unfold nextRange at h
  cases hf : findFrom p P i with
  | none => exact findFrom_eq_none hf k hk hk'
  | some j => rw [hf] at h; simp at h

/-- Full characterisation of a successful `nextRange`. -/
theorem nextRange_eq_some {p : Nat → Bool} {P i j n : Nat}
    (h : nextRange p P i = some (j, n)) :
    i ≤ j ∧ j < P ∧ 0 < n ∧ j + n ≤ P ∧
      (∀ k, i ≤ k → k < j → p k = false) ∧
      (∀ k, k < n → p (j + k) = true) ∧
      (j + n < P → p (j + n) = false) := by
  unfold nextRange at h
  cases hf : findFrom p P i with
  | none => rw [hf] at h; simp at h
  | some j' =>
    rw [hf] at h
    simp only [Option.some.injEq, Prod.mk.injEq] at h
    obtain ⟨hj, hn⟩ := h
    rw [← hj, ← hn]
    obtain ⟨h1, h2, h3, h4⟩ := findFrom_eq_some hf
    have hle := runLen_le (p := p) (P := P) (i := j')
    exact ⟨h1, h2, runLen_pos h2 h3, by omega, h4, runLen_true, runLen_end⟩

/-- `nextRange` only looks at indices `≥ i`. -/
theorem nextRange_congr {p q : Nat → Bool} {P i : Nat}
    (h : ∀ k, i ≤ k → k < P → p k = q k) :
    nextRange p P i = nextRange q P i := by
  rcases le_or_lt P i with hPi | hPi
  · have h0 : P - i = 0 := by omega
    unfold nextRange findFrom
    rw [h0]
    rfl
  have hf : findFrom p P i = findFrom q P i := by
    unfold findFrom
    have haux : ∀ fuel i', i ≤ i' → i' + fuel ≤ P →
        findFromAux p fuel i' = findFromAux q fuel i' := by
      intro fuel
      induction fuel with
      | zero => intro i' _ _; rfl
      | succ fuel ih =>
        intro i' hi' hb
        rw [findFromAux, findFromAux, h i' hi' (by omega), ih (i' + 1) (by omega) (by omega)]
    exact haux (P - i) i (le_refl i) (by omega)
  unfold nextRange
  rw [hf]
  cases hf' : findFrom q P i with
  | none => rfl
  | some j =>
    obtain ⟨h1, h2, _, _⟩ := findFrom_eq_some hf'
    have hr : runLen p P j = runLen q P j := by
      unfold runLen
      have haux : ∀ fuel i', i ≤ i' → i' + fuel ≤ P →
          runLenAux p fuel i' = runLenAux q fuel i' := by
        intro fuel
        induction fuel with
        | zero => intro i' _ _; rfl
        | succ fuel ih =>
          intro i' hi' hb
          rw [runLenAux, runLenAux, h i' hi' (by omega), ih (i' + 1) (by omega) (by omega)]
      exact haux (P - j) j h1 (by omega)
    simp [hr]

/-- A scan finding `j` with nothing set before it pins down `findFrom`. -/
theorem findFrom_intro {p : Nat → Bool} {P i j : Nat}
    (hij : i ≤ j) (hjP : j < P) (hp : p j = true)
    (hbefore : ∀ k, i ≤ k → k < j → p k = false) :
    findFrom p P i = some j := by
  obtain ⟨j', hj', hle⟩ := findFrom_of_true hij hjP hp
  obtain ⟨h1, _, h3, _⟩ := findFrom_eq_some hj'
  rcases Nat.eq_or_lt_of_le hle with rfl | hlt
  · exact hj'
  · exact absurd (hbefore j' h1 hlt) (by simp [h3])

/-- A run of `n` set bits ending at an unset bit (or at `P`) pins down
`runLen`. -/
theorem runLen_intro {p : Nat → Bool} {P j n : Nat}
    (hrun : ∀ k, k < n → p (j + k) = true)
    (hend : j + n = P ∨ p (j + n) = false) (hnP : j + n ≤ P) :
    runLen p P j = n := by
  have hle := runLen_le (p := p) (P := P) (i := j)
  rcases Nat.lt_trichotomy (runLen p P j) n with hlt | heq | hgt
  · have ht := hrun (runLen p P j) hlt
    have := runLen_end (p := p) (P := P) (i := j) (by omega)
    rw [this] at ht
    cases ht
  · exact heq
  · have ht := runLen_true (p := p) (P := P) (i := j) n hgt
    rcases hend with hP | hf
    · omega
    · rw [hf] at ht; cases ht

/-- Constructor form of `nextRange`. -/
theorem nextRange_intro {p : Nat → Bool} {P i j n : Nat}
    (hij : i ≤ j) (hjP : j < P) (hn : 0 < n) (hnP : j + n ≤ P)
    (hbefore : ∀ k, i ≤ k → k < j → p k = false)
    (hrun : ∀ k, k < n → p (j + k) = true)
    (hend : j + n = P ∨ p (j + n) = false) :
    nextRange p P i = some (j, n) := by
  unfold nextRange
  rw [findFrom_intro hij hjP (by simpa using hrun 0 hn) hbefore]
  show some (j, runLen p P j) = some (j, n)
  rw [runLen_intro hrun hend hnP]

theorem nextRange_of_ge {p : Nat → Bool} {P i : Nat} (h : P ≤ i) :
    nextRange p P i = none := by
  unfold nextRange findFrom
  have h0 : P - i = 0 := by omega
  rw [h0]
  rfl

/-- Skipping an all-unset range does not change `nextRange`. -/
theorem nextRange_skip {p : Nat → Bool} {P i i' : Nat} (hii : i ≤ i')
    (hclear : ∀ k, i ≤ k → k < i' → p k = false) :
    nextRange p P i = nextRange p P i' := by
  cases h' : nextRange p P i' with
  | none =>
    cases h : nextRange p P i with
    | none => rfl
    | some r =>
      obtain ⟨h1, h2, h3, h4, h5, h6, h7⟩ := nextRange_eq_some h
      have hp := by simpa using h6 0 h3
      have : r.1 < i' := by
        by_contra hge
        exact absurd (nextRange_eq_none h' r.1 (by omega) h2) (by simp [hp])
      exact absurd (hclear r.1 h1 this) (by simp [hp])
  | some r =>
    obtain ⟨h1, h2, h3, h4, h5, h6, h7⟩ := nextRange_eq_some h'
    have hend : r.1 + r.2 = P ∨ p (r.1 + r.2) = false := by
      rcases Nat.eq_or_lt_of_le h4 with he | hlt
      · exact Or.inl he
      · exact Or.inr (h7 hlt)
    refine nextRange_intro (by omega) h2 h3 h4 ?_ h6 hend
    intro k hk hk'
    rcases Nat.lt_or_ge k i' with hlt | hge
    · exact hclear k hk hlt
    · exact h5 k hge hk'

theorem runsAux_of_ge {p : Nat → Bool} {P i : Nat} (h : P ≤ i) :
    ∀ fuel, runsAux p P fuel i = [] := by
  intro fuel
  cases fuel with
  | zero => rfl
  | succ fuel => rw [runsAux, nextRange_of_ge h]

/-- Enough fuel makes `runsAux` independent of the exact fuel. -/
theorem runsAux_stable {p : Nat → Bool} {P : Nat} :
    ∀ {fuel fuel' i}, P - i ≤ fuel → P - i ≤ fuel' →
      runsAux p P fuel i = runsAux p P fuel' i := by
  intro fuel
  induction fuel with
  | zero =>
    intro fuel' i h h'
    rw [runsAux_of_ge (by omega), runsAux_of_ge (by omega)]
  | succ fuel ih =>
    intro fuel' i h h'
    cases fuel' with
    | zero => rw [runsAux_of_ge (by omega), runsAux_of_ge (by omega)]
    | succ fuel' =>
      rw [runsAux, runsAux]
      cases hn : nextRange p P i with
      | none => rfl
      | some r =>
        obtain ⟨a, b⟩ := r
        obtain ⟨h1, h2, h3, h4, _, _, _⟩ := nextRange_eq_some hn
        show (a, b) :: runsAux p P fuel (a + b) = (a, b) :: runsAux p P fuel' (a + b)
        rw [@ih fuel' (a + b) (by omega) (by omega)]

/-- The maximal runs at positions `≥ i`. -/
def runsFrom (p : Nat → Bool) (P i : Nat) : List (Nat × Nat) :=
  runsAux p P P i

theorem runsFrom_of_ge {p : Nat → Bool} {P i : Nat} (h : P ≤ i) :
    runsFrom p P i = [] :=
  runsAux_of_ge h P

theorem runsOf_eq_runsFrom {p : Nat → Bool} {P : Nat} :
    runsOf p P = runsFrom p P 0 := rfl

/-- One-step unfolding of `runsFrom`. -/
theorem runsFrom_eq {p : Nat → Bool} {P i : Nat} :
    runsFrom p P i =
      match nextRange p P i with
      | none => []
      | some (j, n) => (j, n) :: runsFrom p P (j + n) := by
  cases hn : nextRange p P i with
  | none =>
    rcases Nat.lt_or_ge i P with hi | hi
    · unfold runsFrom
      rw [@runsAux_stable p P P ((P - i - 1) + 1) i (by omega) (by omega), runsAux, hn]
    · exact runsFrom_of_ge hi
  | some r =>
    obtain ⟨a, b⟩ := r
    obtain ⟨h1, h2, h3, h4, _, _, _⟩ := nextRange_eq_some hn
    show runsFrom p P i = (a, b) :: runsFrom p P (a + b)
    unfold runsFrom
    rw [@runsAux_stable p P P ((P - i - 1) + 1) i (by omega) (by omega), runsAux, hn]
    show (a, b) :: runsAux p P (P - i - 1) (a + b) = (a, b) :: runsAux p P P (a + b)
    rw [@runsAux_stable p P (P - i - 1) P (a + b) (by omega) (by omega)]

/-- Every run lies in `[i, P)`, is nonempty, consists of set bits, and is
maximal on both sides. -/
theorem runsFrom_mem {p : Nat → Bool} {P : Nat} :
    ∀ {i r}, r ∈ runsFrom p P i →
      i ≤ r.1 ∧ 0 < r.2 ∧ r.1 + r.2 ≤ P ∧
        (∀ k, k < r.2 → p (r.1 + k) = true) ∧
        (r.1 + r.2 < P → p (r.1 + r.2) = false) := by
  suffices haux : ∀ fuel {i r}, r ∈ runsAux p P fuel i →
      i ≤ r.1 ∧ 0 < r.2 ∧ r.1 + r.2 ≤ P ∧
        (∀ k, k < r.2 → p (r.1 + k) = true) ∧
        (r.1 + r.2 < P → p (r.1 + r.2) = false) by
    intro i r hr
    exact haux P hr
  intro fuel
  induction fuel with
  | zero => intro i r hr; simp [runsAux] at hr
  | succ fuel ih =>
    intro i r hr
    rw [runsAux] at hr
    cases hn : nextRange p P i with
    | none => rw [hn] at hr; simp at hr
    | some r0 =>
      obtain ⟨a, b⟩ := r0
      rw [hn] at hr
      obtain ⟨h1, h2, h3, h4, h5, h6, h7⟩ := nextRange_eq_some hn
      have hr2 : r ∈ (a, b) :: runsAux p P fuel (a + b) := hr
      rcases List.mem_cons.mp hr2 with rfl | htail
      · exact ⟨h1, h3, h4, h6, h7⟩
      · obtain ⟨g1, g2, g3, g4, g5⟩ := ih htail
        exact ⟨by omega, g2, g3, g4, g5⟩

/-- Every set bit below `P` at position `≥ i` is covered by some run. -/
theorem runsFrom_covers {p : Nat → Bool} {P : Nat} :
    ∀ {i j}, i ≤ j → j < P → p j = true →
      ∃ r ∈ runsFrom p P i, r.1 ≤ j ∧ j < r.1 + r.2 := by
  suffices haux : ∀ fuel {i j}, P - i ≤ fuel → i ≤ j → j < P → p j = true →
      ∃ r ∈ runsFrom p P i, r.1 ≤ j ∧ j < r.1 + r.2 by
    intro i j h1 h2 h3
    exact haux P (by omega) h1 h2 h3
  intro fuel
  induction fuel with
  | zero => intro i j h0 h1 h2 _; omega
  | succ fuel ih =>
    intro i j h0 h1 h2 hp
    rw [runsFrom_eq]
    cases hn : nextRange p P i with
    | none => exact absurd (nextRange_eq_none hn j h1 h2) (by simp [hp])
    | some r0 =>
      obtain ⟨a, b⟩ := r0
      obtain ⟨g1, g2, g3, g4, g5, g6, g7⟩ := nextRange_eq_some hn
      show ∃ r ∈ (a, b) :: runsFrom p P (a + b), r.1 ≤ j ∧ j < r.1 + r.2
      rcases Nat.lt_or_ge j (a + b) with hlt | hge
      · have hj1 : a ≤ j := by
          by_contra hc
          exact absurd (g5 j h1 (by omega)) (by simp [hp])
        exact ⟨(a, b), by simp, hj1, hlt⟩
      · obtain ⟨r, hr, hcov⟩ := ih (i := a + b) (by omega) hge h2 hp
        exact ⟨r, by simp [hr], hcov⟩

/-- Distinct runs never overlap: a position is covered by at most one run. -/
theorem runsFrom_unique {p : Nat → Bool} {P : Nat} :
    ∀ {i r r' j}, r ∈ runsFrom p P i → r' ∈ runsFrom p P i →
      r.1 ≤ j → j < r.1 + r.2 → r'.1 ≤ j → j < r'.1 + r'.2 → r = r' := by
  suffices haux : ∀ fuel {i r r' j}, r ∈ runsAux p P fuel i → r' ∈ runsAux p P fuel i →
      r.1 ≤ j → j < r.1 + r.2 → r'.1 ≤ j → j < r'.1 + r'.2 → r = r' by
    intro i r r' j h h'
    exact haux P h h'
  intro fuel
  induction fuel with
  | zero => intro i r r' j h; simp [runsAux] at h
  | succ fuel ih =>
    intro i r r' j hr hr' hj1 hj2 hj3 hj4
    rw [runsAux] at hr hr'
    cases hn : nextRange p P i with
    | none => rw [hn] at hr; simp at hr
    | some r0 =>
      obtain ⟨a, b⟩ := r0
      rw [hn] at hr hr'
      have hr2 : r ∈ (a, b) :: runsAux p P fuel (a + b) := hr
      have hr2' : r' ∈ (a, b) :: runsAux p P fuel (a + b) := hr'
      have hge : ∀ {s}, s ∈ runsAux p P fuel (a + b) → a + b ≤ s.1 := by
        intro s hs
        suffices hmono : ∀ fuel' {i' s'}, s' ∈ runsAux p P fuel' i' → i' ≤ s'.1 by
          exact hmono fuel hs
        intro fuel'
        induction fuel' with
        | zero => intro i' s' hs'; simp [runsAux] at hs'
        | succ fuel' ih' =>
          intro i' s' hs'
          rw [runsAux] at hs'
          cases hn' : nextRange p P i' with
          | none => rw [hn'] at hs'; simp at hs'
          | some r1 =>
            obtain ⟨a', b'⟩ := r1
            rw [hn'] at hs'
            obtain ⟨k1, _, k3, _, _, _, _⟩ := nextRange_eq_some hn'
            have hs2 : s' ∈ (a', b') :: runsAux p P fuel' (a' + b') := hs'
            rcases List.mem_cons.mp hs2 with rfl | htail
            · exact k1
            · have := ih' htail
              omega
      rcases List.mem_cons.mp hr2 with rfl | hrt
      · rcases List.mem_cons.mp hr2' with rfl | hrt'
        · rfl
        · have := hge hrt'
          simp at hj2 hj3
          omega
      · rcases List.mem_cons.mp hr2' with rfl | hrt'
        · have := hge hrt
          simp at hj4 hj1
          omega
        · exact ih hrt hrt' hj1 hj2 hj3 hj4

/-- Runs only look at bits at positions `≥ i`. -/
theorem runsFrom_congr {p q : Nat → Bool} {P : Nat} :
    ∀ {i}, (∀ k, i ≤ k → k < P → p k = q k) → runsFrom p P i = runsFrom q P i := by
  suffices haux : ∀ fuel {i}, (∀ k, i ≤ k → k < P → p k = q k) →
      runsAux p P fuel i = runsAux q P fuel i by
    intro i h
    exact haux P h
  intro fuel
  induction fuel with
  | zero => intro i _; rfl
  | succ fuel ih =>
    intro i h
    rw [runsAux, runsAux, nextRange_congr h]
    cases hn : nextRange q P i with
    | none => rfl
    | some r0 =>
      obtain ⟨a, b⟩ := r0
      obtain ⟨h1, _, _, _, _, _, _⟩ := nextRange_eq_some hn
      show (a, b) :: runsAux p P fuel (a + b) = (a, b) :: runsAux q P fuel (a + b)
      rw [ih fun k hk hk' => h k (by omega) hk']

/-- Skipping an all-unset range does not change the runs. -/
theorem runsFrom_skip {p : Nat → Bool} {P i i' : Nat} (hii : i ≤ i')
    (hclear : ∀ k, i ≤ k → k < i' → p k = false) :
    runsFrom p P i = runsFrom p P i' := by
  rw [runsFrom_eq, runsFrom_eq (i := i'), nextRange_skip hii hclear]

theorem nextRange_none_intro {p : Nat → Bool} {P i : Nat}
    (h : ∀ k, i ≤ k → k < P → p k = false) : nextRange p P i = none := by
  cases hn : nextRange p P i with
  | none => rfl
  | some r =>
    obtain ⟨h1, h2, h3, _, _, h6, _⟩ := nextRange_eq_some hn
    have hp := by simpa using h6 0 h3
    exact absurd (h r.1 h1 h2) (by simp [hp])

/-! ### PageTracker (`huge_page_filler.h`) -/

/-- `PageTracker`: allocation state of one huge page of `P` small pages.
`used` embeds the `free_` range tracker's bitmap (true = allocated, so "free"
is `!used`), `released` embeds `released_by_page_`.  `nallocs` is the live
allocation count of the range tracker. -/
structure PageTracker where
  used : Nat → Bool
  nallocs : Nat
  released : Nat → Bool
  releasedCount : Nat
  donated : Bool
  wasDonated : Bool
  wasReleased : Bool
  abandoned : Bool
  abandonedCount : Nat
  unbroken : Bool
  hasDenseSpans : Bool

namespace PageTracker

/-- `PageTracker::used_pages()` = `free_.used()`. -/
def usedPages (P : Nat) (t : PageTracker) : Nat := countTrue t.used 0 P

/-- `PageTracker::free_pages()` = `kPagesPerHugePage - used_pages()`. -/
def freePages (P : Nat) (t : PageTracker) : Nat := P - t.usedPages P

/-- `PageTracker::longest_free_range()` = `free_.longest_free()`. -/
def longestFreeRange (P : Nat) (t : PageTracker) : Nat :=
  longestRun (fun i => !t.used i) P

/-- `PageTracker::released_pages()` = `released_count_`. -/
def releasedPages (t : PageTracker) : Nat := t.releasedCount

/-- `PageTracker::released()` = `released_count_ > 0`. -/
def isReleased (t : PageTracker) : Bool := decide (0 < t.releasedCount)

/-- `PageTracker::empty()` = `free_.used() == 0`. -/
def isEmpty (P : Nat) (t : PageTracker) : Bool := decide (t.usedPages P = 0)

/-- `PageTracker::Get(n)`: `free_.FindAndMark(n)` then clear released bits in
the returned range (under the code's `released_count_ > 0` fast-path test) and
return `(page offset, previously_unbacked)` with the updated tracker.  `none`
when no free run of length `≥ n` exists, which the C++ precondition
`longest_free_range() ≥ n` excludes. -/
def get (P : Nat) (t : PageTracker) (n : Nat) : Option ((Nat × Nat) × PageTracker) :=
  match findRun (fun i => !t.used i) P n with
  | none => none
  | some index =>
    let withAlloc :=
      { t with used := setRange t.used index n, nallocs := t.nallocs + 1 }
    if 0 < t.releasedCount then
      let unbacked := countTrue t.released index n
      some ((index, unbacked),
        { withAlloc with
          released := clearRange t.released index n
          releasedCount := t.releasedCount - unbacked })
    else
      some ((index, 0), withAlloc)

/-- `PageTracker::Put(p, n)`: `free_.Unmark(p, n)`; released bits untouched. -/
def put (t : PageTracker) (p n : Nat) : PageTracker :=
  { t with used := clearRange t.used p n, nallocs := t.nallocs - 1 }

end PageTracker

/-- The loop of `PageTracker::ReleaseFree(unback)`.  State: the
`released_by_page_` bitmap `rel`, scan position `index`, released-page
accumulator `count` and the `unbroken_` flag (cleared by
`PageTracker::ReleasePages` on a successful unback).  Also records the trace
of unback invocations `((start, len), success)`.  The C++ `while` loop
strictly advances `index` below `P`, so fuel `P` suffices. -/
def releaseFreeLoop (P : Nat) (unback : Nat → Nat → Bool) (used : Nat → Bool) :
    Nat → (Nat → Bool) → Nat → Nat → Bool →
      List ((Nat × Nat) × Bool) × Nat × (Nat → Bool) × Bool
  | 0, rel, _, count, unb => ([], count, rel, unb)
  | fuel + 1, rel, index, count, unb =>
    match nextRange (fun i => !rel i) P index with
    | none => ([], count, rel, unb)
    | some (idx, n) =>
      match nextRange (fun i => !used i) P idx with
      | some (fi, fn) =>
        if fi < idx + n then
          let e := min (fi + fn) (idx + n)
          let len := e - fi
          if unback fi len then
            let r := releaseFreeLoop P unback used fuel (setRange rel fi len) e
              (count + len) false
            (((fi, len), true) :: r.1, r.2)
          else
            let r := releaseFreeLoop P unback used fuel rel e count unb
            (((fi, len), false) :: r.1, r.2)
        else
          releaseFreeLoop P unback used fuel rel (idx + n) count unb
      | none => releaseFreeLoop P unback used fuel rel (idx + n) count unb

/-- `PageTracker::ReleaseFree(unback)`: walk the loop from index 0 and fold
the results back into the tracker (`released_count_ += count`). -/
def PageTracker.releaseFree (P : Nat) (unback : Nat → Nat → Bool)
    (t : PageTracker) : Nat × PageTracker :=
  let r := releaseFreeLoop P unback t.used P t.released 0 0 t.unbroken
  (r.2.1,
    { t with
      released := r.2.2.1
      releasedCount := t.releasedCount + r.2.1
      unbroken := r.2.2.2 })

/-- The unback invocations `ReleaseFree` makes, in order. -/
def PageTracker.releaseFreeTrace (P : Nat) (unback : Nat → Nat → Bool)
    (t : PageTracker) : List ((Nat × Nat) × Bool) :=
  (releaseFreeLoop P unback t.used P t.released 0 0 t.unbroken).1

/-- The maximal runs of pages that are currently free (`!used`) and currently
backed (`!released`) — the pieces `ReleaseFree` hands to `unback`. -/
def freeBackedRuns (P : Nat) (used rel : Nat → Bool) : List (Nat × Nat) :=
  runsOf (fun i => !used i && !rel i) P

/-- Total length of the runs accepted by `unback`. -/
def sumSucc (unback : Nat → Nat → Bool) (R : List (Nat × Nat)) : Nat :=
  R.foldr (fun r s => if unback r.1 r.2 then r.2 + s else s) 0

/-- Whether position `j` lies in some run accepted by `unback`. -/
def inSuccRun (unback : Nat → Nat → Bool) (R : List (Nat × Nat)) (j : Nat) : Bool :=
  R.any fun r => unback r.1 r.2 && decide (r.1 ≤ j) && decide (j < r.1 + r.2)

/-- Whether some run is accepted by `unback`. -/
def anySucc (unback : Nat → Nat → Bool) (R : List (Nat × Nat)) : Bool :=
  R.any fun r => unback r.1 r.2

/-- Central characterisation of the `ReleaseFree` loop: starting the scan at
`index`, the loop invokes `unback` on exactly the maximal free-and-backed runs
at positions `≥ index`, in order; it adds the lengths of the accepted runs to
`count`, sets the released bits of exactly the accepted runs, and clears
`unbroken_` iff some run was accepted. -/
theorem releaseFreeLoop_spec {P : Nat} {unback : Nat → Nat → Bool} {used : Nat → Bool} :
    ∀ (fuel : Nat) (rel : Nat → Bool) (index count : Nat) (unb : Bool),
      P ≤ index + fuel →
      releaseFreeLoop P unback used fuel rel index count unb =
        ((runsFrom (fun i => !used i && !rel i) P index).map fun r => (r, unback r.1 r.2),
          count + sumSucc unback (runsFrom (fun i => !used i && !rel i) P index),
          (fun j => rel j || inSuccRun unback (runsFrom (fun i => !used i && !rel i) P index) j),
          unb && !anySucc unback (runsFrom (fun i => !used i && !rel i) P index)) := by
  intro fuel
  induction fuel with
  | zero =>
    intro rel index count unb hfuel
    have hR : runsFrom (fun i => !used i && !rel i) P index = [] :=
      runsFrom_of_ge (by omega)
    simp only [releaseFreeLoop, hR]
    simp [sumSucc, inSuccRun, anySucc]
  | succ fuel ih =>
    intro rel index count unb hfuel
    cases h1 : nextRange (fun i => !rel i) P index with
    | none =>
      have hfb : ∀ k, index ≤ k → k < P → (!used k && !rel k) = false := by
        intro k hk hk'
        have h := nextRange_eq_none h1 k hk hk'
        simp at h
        simp [h]
      have hR : runsFrom (fun i => !used i && !rel i) P index = [] := by
        rw [runsFrom_eq, nextRange_none_intro hfb]
      simp only [releaseFreeLoop, h1, hR]
      simp [sumSucc, inSuccRun, anySucc]
    | some r =>
      obtain ⟨idx, n⟩ := r
      obtain ⟨g1, g2, g3, g4, g5, g6, g7⟩ := nextRange_eq_some h1
      simp only [releaseFreeLoop, h1]
      cases h2 : nextRange (fun i => !used i) P idx with
      | none =>
        have hfb : ∀ k, index ≤ k → k < idx + n → (!used k && !rel k) = false := by
          intro k hk hk'
          rcases Nat.lt_or_ge k idx with hlt | hge
          · have h := g5 k hk hlt
            simp at h
            simp [h]
          · have h := nextRange_eq_none h2 k hge (by omega)
            simp at h
            simp [h]
        rw [ih rel (idx + n) count unb (by omega),
          runsFrom_skip (show index ≤ idx + n by omega) hfb]
      | some s =>
        obtain ⟨fi, fn⟩ := s
        obtain ⟨k1, k2, k3, k4, k5, k6, k7⟩ := nextRange_eq_some h2
        dsimp only
        by_cases hfi : fi < idx + n
        · rw [if_pos hfi]
          have hee : fi < min (fi + fn) (idx + n) := by omega
          have heP : min (fi + fn) (idx + n) ≤ P := by omega
          have hflen : fi + (min (fi + fn) (idx + n) - fi) = min (fi + fn) (idx + n) := by
            omega
          have hhead : nextRange (fun i => !used i && !rel i) P index =
              some (fi, min (fi + fn) (idx + n) - fi) := by
            apply nextRange_intro (by omega) k2 (by omega) (by omega)
            · intro k hk hk'
              rcases Nat.lt_or_ge k idx with hlt | hge
              · have h := g5 k hk hlt
                simp at h
                simp [h]
              · have h := k5 k hge hk'
                simp at h
                simp [h]
            · intro k hk
              have hu := k6 k (by omega)
              have hr' := g6 (fi + k - idx) (by omega)
              have hik : idx + (fi + k - idx) = fi + k := by omega
              rw [hik] at hr'
              simp at hu hr'
              simp [hu, hr']
            · rw [hflen]
              rcases Nat.eq_or_lt_of_le heP with hP | hP
              · exact Or.inl hP
              · right
                rcases le_total (fi + fn) (idx + n) with hmin | hmin
                · have he' : min (fi + fn) (idx + n) = fi + fn := by omega
                  have h := k7 (by omega)
                  simp at h
                  simp [he', h]
                · have he' : min (fi + fn) (idx + n) = idx + n := by omega
                  have h := g7 (by omega)
                  simp at h
                  simp [he', h]
          have hruns : runsFrom (fun i => !used i && !rel i) P index =
              (fi, min (fi + fn) (idx + n) - fi) ::
                runsFrom (fun i => !used i && !rel i) P (min (fi + fn) (idx + n)) := by
            rw [runsFrom_eq, hhead]
            show _ :: runsFrom (fun i => !used i && !rel i) P
                (fi + (min (fi + fn) (idx + n) - fi)) = _
            rw [hflen]
          by_cases hub : unback fi (min (fi + fn) (idx + n) - fi)
          · rw [if_pos hub]
            have hcongr :
                runsFrom (fun i => !used i &&
                    !(setRange rel fi (min (fi + fn) (idx + n) - fi)) i) P
                  (min (fi + fn) (idx + n)) =
                runsFrom (fun i => !used i && !rel i) P (min (fi + fn) (idx + n)) := by
              apply runsFrom_congr
              intro k hk hk'
              have hs : setRange rel fi (min (fi + fn) (idx + n) - fi) k = rel k := by
                unfold setRange
                rw [if_neg (by omega)]
              rw [hs]
            rw [ih (setRange rel fi (min (fi + fn) (idx + n) - fi))
              (min (fi + fn) (idx + n)) (count + (min (fi + fn) (idx + n) - fi)) false
              (by omega), hcongr, hruns]
            simp only [Prod.mk.injEq, List.map_cons]
            refine ⟨by simp [hub], ?_, ?_, ?_⟩
            · simp only [sumSucc, List.foldr_cons, if_pos hub]
              omega
            · funext j
              simp only [inSuccRun, List.any_cons, hub, Bool.true_and, setRange]
              by_cases hj1 : fi ≤ j <;> by_cases hj2 : j < fi + (min (fi + fn) (idx + n) - fi)
                <;> simp [hj1, hj2]
            · simp [anySucc, hub]
          · rw [if_neg hub]
            have hub' : unback fi (min (fi + fn) (idx + n) - fi) = false := by
              simpa using hub
            rw [ih rel (min (fi + fn) (idx + n)) count unb (by omega), hruns]
            simp only [Prod.mk.injEq, List.map_cons]
            refine ⟨by simp [hub'], ?_, ?_, ?_⟩
            · simp [sumSucc, hub']
            · funext j
              simp [inSuccRun, hub']
            · simp [anySucc, hub']
        · rw [if_neg hfi]
          have hfb : ∀ k, index ≤ k → k < idx + n → (!used k && !rel k) = false := by
            intro k hk hk'
            rcases Nat.lt_or_ge k idx with hlt | hge
            · have h := g5 k hk hlt
              simp at h
              simp [h]
            · have h := k5 k hge (by omega)
              simp at h
              simp [h]
          rw [ih rel (idx + n) count unb (by omega),
            runsFrom_skip (show index ≤ idx + n by omega) hfb]

/-! ### Characterisation of `findRun` (the `FindAndMark` search) -/

theorem findRunAux_sound {p : Nat → Bool} {P n : Nat} :
    ∀ fuel i j, findRunAux p P n fuel i = some j →
      ∃ len, (j, len) ∈ runsFrom p P i ∧ n ≤ len ∧
        ∀ r ∈ runsFrom p P i, r.1 < j → r.2 < n := by
  intro fuel
  induction fuel with
  | zero => intro i j h; simp [findRunAux] at h
  | succ fuel ih =>
    intro i j h
    rw [findRunAux] at h
    cases hn : nextRange p P i with
    | none => rw [hn] at h; simp at h
    | some r0 =>
      obtain ⟨a, b⟩ := r0
      rw [hn] at h
      dsimp only at h
      have hruns : runsFrom p P i = (a, b) :: runsFrom p P (a + b) := by
        rw [runsFrom_eq, hn]
      by_cases hb : n ≤ b
      · rw [if_pos hb] at h
        simp at h
        subst h
        refine ⟨b, by simp [hruns], hb, ?_⟩
        intro r hr hr1
        rw [hruns] at hr
        rcases List.mem_cons.mp hr with rfl | htail
        · omega
        · have := (runsFrom_mem htail).1
          omega
      · rw [if_neg hb] at h
        obtain ⟨len, hmem, hlen, hearlier⟩ := ih (a + b) j h
        refine ⟨len, by simp [hruns, hmem], hlen, ?_⟩
        intro r hr hr1
        rw [hruns] at hr
        rcases List.mem_cons.mp hr with rfl | htail
        · omega
        · exact hearlier r htail hr1

theorem findRunAux_none {p : Nat → Bool} {P n : Nat} :
    ∀ fuel i, P ≤ i + fuel → findRunAux p P n fuel i = none →
      ∀ r ∈ runsFrom p P i, r.2 < n := by
  intro fuel
  induction fuel with
  | zero =>
    intro i hP h r hr
    rw [runsFrom_of_ge (by omega)] at hr
    simp at hr
  | succ fuel ih =>
    intro i hP h r hr
    rw [findRunAux] at h
    cases hn : nextRange p P i with
    | none =>
      rw [runsFrom_eq, hn] at hr
      simp at hr
    | some r0 =>
      obtain ⟨a, b⟩ := r0
      rw [hn] at h
      dsimp only at h
      obtain ⟨m1, m2, m3, m4, _, _, _⟩ := nextRange_eq_some hn
      by_cases hb : n ≤ b
      · rw [if_pos hb] at h; simp at h
      · rw [if_neg hb] at h
        rw [runsFrom_eq, hn] at hr
        rcases List.mem_cons.mp hr with rfl | htail
        · omega
        · exact ih (a + b) (by omega) h r htail

/-- A successful `findRun` returns the least admissible placement: the `n`
pages at the result are free, and every strictly smaller start with room for
`n` pages has an allocated page in its window. -/
theorem findRun_some {p : Nat → Bool} {P n j : Nat} (hn : 0 < n)
    (h : findRun p P n = some j) :
    j + n ≤ P ∧ (∀ k, k < n → p (j + k) = true) ∧
      ∀ i', i' + n ≤ P → i' < j → ∃ k, k < n ∧ p (i' + k) = false := by
  obtain ⟨len, hmem, hlen, hearlier⟩ := findRunAux_sound P 0 j h
  obtain ⟨_, _, hrP, hrtrue, hrend⟩ := runsFrom_mem hmem
  refine ⟨by omega, fun k hk => hrtrue k (by omega), ?_⟩
  intro i' hi'P hi'j
  by_contra hc
  push_neg at hc
  have hwin : ∀ k, k < n → p (i' + k) = true := by
    intro k hk
    have := hc k hk
    simpa using this
  have hp0 : p i' = true := by simpa using hwin 0 hn
  obtain ⟨r, hr, hcov1, hcov2⟩ :=
    runsFrom_covers (p := p) (P := P) (i := 0) (Nat.zero_le i') (by omega) hp0
  obtain ⟨_, _, hrP', hrtrue', hrend'⟩ := runsFrom_mem hr
  have hwide : i' + n ≤ r.1 + r.2 := by
    by_contra hnar
    have hkn : r.1 + r.2 - i' < n := by omega
    have := hwin (r.1 + r.2 - i') hkn
    have hidx : i' + (r.1 + r.2 - i') = r.1 + r.2 := by omega
    rw [hidx] at this
    rw [hrend' (by omega)] at this
    cases this
  have : r.2 < n := hearlier r hr (by omega)
  omega

theorem findRun_none {p : Nat → Bool} {P n : Nat} (h : findRun p P n = none) :
    ∀ r ∈ runsOf p P, r.2 < n := by
  rw [runsOf_eq_runsFrom]
  exact findRunAux_none P 0 (by omega) h

theorem foldr_max_lt {R : List (Nat × Nat)} {n : Nat} (hn : 0 < n)
    (h : ∀ r ∈ R, r.2 < n) : R.foldr (fun r m => max r.2 m) 0 < n := by
  induction R with
  | nil => simpa using hn
  | cons r R ihR =>
    simp only [List.foldr_cons]
    have h1 := h r (by simp)
    have h2 := ihR fun r' hr' => h r' (by simp [hr'])
    omega

/-- `longest_free() ≥ n` guarantees `FindAndMark(n)` succeeds. -/
theorem findRun_isSome_of_longest {p : Nat → Bool} {P n : Nat} (hn : 0 < n)
    (h : n ≤ longestRun p P) : findRun p P n ≠ none := by
  intro hnone
  have hall := findRun_none hnone
  unfold longestRun at h
  have := foldr_max_lt hn hall
  omega

theorem countTrue_eq_zero {p : Nat → Bool} {i n : Nat} :
    countTrue p i n = 0 ↔ ∀ k, k < n → p (i + k) = false := by
  unfold countTrue
  rw [List.countP_eq_zero]
  constructor
  · intro h k hk
    have := h k (List.mem_range.mpr hk)
    simpa using this
  · intro h k hk
    simp [h k (List.mem_range.mp hk)]

/-! ### HugeRegion (`huge_region.h`)

`P` = pages per huge page, `N` = `kNumHugePages`.  The region tracks `N * P`
small pages.  `last_touched_` (wall-clock cycle counts combined through
floating-point `AverageWhens`) is outside the embedding; no claim concerns
it. -/

/-- `HugeRegion`: `used` embeds the `tracker_` bitmap over `N * P` pages,
`nallocs` its live-allocation count; the remaining fields mirror
`pages_used_`, `backed_`, `nbacked_`, `total_unbacked_` and the start page id
of `location_`. -/
structure HugeRegion where
  used : Nat → Bool
  nallocs : Nat
  pagesUsed : Nat → Nat
  backed : Nat → Bool
  nbacked : Nat
  totalUnbacked : Nat
  base : Nat

namespace HugeRegion

/-- `HugeRegion::longest_free()` = `tracker_.longest_free()`. -/
def longestFree (P N : Nat) (r : HugeRegion) : Nat :=
  longestRun (fun i => !r.used i) (N * P)

/-- `HugeRegion::used_pages()` = `tracker_.used()`. -/
def usedPages (P N : Nat) (r : HugeRegion) : Nat := countTrue r.used 0 (N * P)

/-- `HugeRegion::free_backed()`: huge pages that are backed and fully free. -/
def freeBacked (N : Nat) (r : HugeRegion) : Nat :=
  countTrue (fun k => r.backed k && decide (r.pagesUsed k = 0)) 0 N

/-- `HugeRegion::contains(p)` on absolute page ids. -/
def contains (P N : Nat) (r : HugeRegion) (p : Nat) : Bool :=
  decide (r.base ≤ p) && decide (p < r.base + N * P)

end HugeRegion

/-- Length of `[p0, p0 + n) ∩ [k * P, (k + 1) * P)` — how much of an
allocation lands on huge page `k`. -/
def overlap (P p0 n k : Nat) : Nat :=
  min (p0 + n) ((k + 1) * P) - max p0 (k * P)

/-- State threaded through `HugeRegion::Inc`: the per-huge-page counters and
backed flags, `nbacked_`, and the `should_back` accumulator that becomes
`*from_released`. -/
structure IncState where
  pagesUsed : Nat → Nat
  backed : Nat → Bool
  nbacked : Nat
  shouldBack : Bool

/-- One iteration of `HugeRegion::Inc` on huge page `k`: when it has no used
pages and no backing, set `backed_[k]`, bump `nbacked_` and latch
`should_back`; then add the covered sub-length `here` to `pages_used_[k]`. -/
def incStep (here k : Nat) (st : IncState) : IncState :=
  let st1 :=
    if st.pagesUsed k = 0 && !st.backed k then
      { st with
        backed := fun j => if j = k then true else st.backed j
        nbacked := st.nbacked + 1
        shouldBack := true }
    else st
  { st1 with
    pagesUsed := fun j => if j = k then st1.pagesUsed j + here else st1.pagesUsed j }

/-- The loop of `HugeRegion::Inc(p, n, from_released)`: walk the huge pages
covered by `[p, p + n)`, applying `incStep` with `here = min n (lim - p)` as
in the source.  Each iteration consumes `here ≥ 1` pages (for `P ≥ 1`), so
fuel `n` suffices. -/
def incLoop (P : Nat) : Nat → Nat → Nat → IncState → IncState
  | 0, _, _, st => st
  | fuel + 1, p, n, st =>
    if n = 0 then st
    else
      let here := min n ((p / P + 1) * P - p)
      incLoop P fuel (p + here) (n - here) (incStep here (p / P) st)

/-- `HugeRegion::MaybeGet(n, p, from_released)`: fail if `n > longest_free()`;
else mark the run found by `FindAndMark` and run `Inc` over it.  The returned
page id is `location_.start().first_page() + index`, modelled as
`base + index`.  The inner `none` branch is unreachable under the guard for
`n ≥ 1`. -/
def HugeRegion.maybeGet (P N : Nat) (r : HugeRegion) (n : Nat) :
    Option ((Nat × Bool) × HugeRegion) :=
  if r.longestFree P N < n then none
  else
    match findRun (fun i => !r.used i) (N * P) n with
    | none => none
    | some index =>
      let st := incLoop P n index n ⟨r.pagesUsed, r.backed, r.nbacked, false⟩
      some ((r.base + index, st.shouldBack),
        { r with
          used := setRange r.used index n
          nallocs := r.nallocs + 1
          pagesUsed := st.pagesUsed
          backed := st.backed
          nbacked := st.nbacked })

/-- The loop of `HugeRegion::UnbackHugepages(should_unback)`: walk maximal
runs of flagged huge pages; on each run `[i, j)` call `unback`; on success
subtract its length from `nbacked_`, add it to `total_unbacked_` and clear
the `backed_` flags; a failed call leaves everything unchanged.  `i` strictly
advances, so fuel `N` suffices. -/
def unbackLoop (N : Nat) (unback : Nat → Nat → Bool) (should : Nat → Bool) :
    Nat → Nat → HugeRegion → HugeRegion
  | 0, _, r => r
  | fuel + 1, i, r =>
    if i < N then
      if should i then
        let len := runLen should N i
        if unback i len then
          unbackLoop N unback should fuel (i + len)
            { r with
              backed := fun k => if i ≤ k ∧ k < i + len then false else r.backed k
              nbacked := r.nbacked - len
              totalUnbacked := r.totalUnbacked + len }
        else unbackLoop N unback should fuel (i + len) r
      else unbackLoop N unback should fuel (i + 1) r
    else r

/-- The selection loop of `HugeRegion::Release`: flag huge pages that are
backed and fully free, left to right, stopping once `to_release` of them are
flagged.  Returns the flags and the flagged count (which `Release`
returns). -/
def releaseFlagsLoop (N toRelease : Nat) (r : HugeRegion) :
    Nat → Nat → (Nat → Bool) → Nat → (Nat → Bool) × Nat
  | 0, _, flags, rel => (flags, rel)
  | fuel + 1, i, flags, rel =>
    if i < N then
      let hit := r.backed i && decide (r.pagesUsed i = 0)
      let flags' := if hit then fun j => if j = i then true else flags j else flags
      let rel' := if hit then rel + 1 else rel
      if toRelease ≤ rel' then (flags', rel')
      else releaseFlagsLoop N toRelease r fuel (i + 1) flags' rel'
    else (flags, rel)

/-- `HugeRegion::Release(release_fraction)` (the C++ `double` fraction is
modelled as a rational): clamp the fraction to `[0, 1]`, flag up to
`max(⌊free_backed × fraction⌋, 1)` backed fully-free huge pages, and unback
the flagged runs.  Returns the flagged count and the updated region. -/
def HugeRegion.release (P N : Nat) (unback : Nat → Nat → Bool) (fraction : ℚ)
    (r : HugeRegion) : Nat × HugeRegion :=
  let fyb := r.freeBacked N
  let toRelease := max (⌊(fyb : ℚ) * (min (max fraction 0) 1)⌋.toNat) 1
  let sel := releaseFlagsLoop N toRelease r N 0 (fun _ => false) 0
  (sel.2, unbackLoop N unback sel.1 N 0 r)

/-- The flags `HugeRegion::Release(fraction)` selects for unbacking. -/
def HugeRegion.releaseFlags (N : Nat) (fraction : ℚ) (r : HugeRegion) :
    Nat → Bool :=
  (releaseFlagsLoop N
    (max (⌊((r.freeBacked N : ℚ)) * (min (max fraction 0) 1)⌋.toNat) 1)
    r N 0 (fun _ => false) 0).1

/-- The loop of `HugeRegion::Dec(p, n, release)`: subtract the covered
sub-length from `pages_used_` of each huge page touched and flag huge pages
whose count reaches zero for unbacking. -/
def decLoop (P : Nat) :
    Nat → Nat → Nat → (Nat → Nat) → (Nat → Bool) → (Nat → Nat) × (Nat → Bool)
  | 0, _, _, pu, flags => (pu, flags)
  | fuel + 1, p, n, pu, flags =>
    if n = 0 then (pu, flags)
    else
      let k := p / P
      let here := min n ((k + 1) * P - p)
      let pu' := fun j => if j = k then pu j - here else pu j
      let flags' := if pu' k = 0 then fun j => if j = k then true else flags j else flags
      decLoop P fuel (p + here) (n - here) pu' flags'

/-- `HugeRegion::Put(p, n, release)`: `tracker_.Unmark`, then `Dec`; when
`release` is set, unback the huge pages `Dec` flagged as empty. -/
def HugeRegion.put (P N : Nat) (unback : Nat → Nat → Bool) (r : HugeRegion)
    (p n : Nat) (release : Bool) : HugeRegion :=
  let index := p - r.base
  let dec := decLoop P n index n r.pagesUsed (fun _ => false)
  let r1 :=
    { r with
      used := clearRange r.used index n
      nallocs := r.nallocs - 1
      pagesUsed := dec.1 }
  if release then unbackLoop N unback dec.2 N 0 r1 else r1

/-- The flags `HugeRegion::Dec` computes during `Put(p, n, release)`. -/
def HugeRegion.putFlags (P : Nat) (r : HugeRegion) (p n : Nat) : Nat → Bool :=
  (decLoop P n (p - r.base) n r.pagesUsed (fun _ => false)).2

theorem countTrue_succ {p : Nat → Bool} {i n : Nat} :
    countTrue p i (n + 1) = countTrue p i n + (if p (i + n) then 1 else 0) := by
  unfold countTrue
  rw [List.range_succ, List.countP_append]
  simp [List.countP_cons]

theorem countTrue_congr {p q : Nat → Bool} {i n : Nat}
    (h : ∀ k, k < n → p (i + k) = q (i + k)) : countTrue p i n = countTrue q i n := by
  unfold countTrue
  apply List.countP_congr
  intro k hk
  rw [h k (List.mem_range.mp hk)]

/-- Splitting off the single position where two bit predicates differ. -/
theorem countTrue_eq_add_of {f g : Nat → Bool} {k0 B : Nat} (hk : k0 < B)
    (hagree : ∀ k, k < B → k ≠ k0 → f k = g k) (hg : g k0 = false) :
    countTrue f 0 B = (if f k0 then 1 else 0) + countTrue g 0 B := by
  induction B with
  | zero => omega
  | succ B ihB =>
    rcases Nat.lt_or_ge k0 B with hlt | hge
    · rw [countTrue_succ, countTrue_succ,
        ihB hlt (fun k hkB hne => hagree k (by omega) hne)]
      have hB : f (0 + B) = g (0 + B) := by
        rw [Nat.zero_add]
        exact hagree B (by omega) (by omega)
      rw [hB]
      omega
    · have hk0 : k0 = B := by omega
      subst hk0
      rw [countTrue_succ, countTrue_succ]
      have hcongr : countTrue f 0 k0 = countTrue g 0 k0 :=
        countTrue_congr fun k hk' => hagree (0 + k) (by omega) (by omega)
      rw [hcongr]
      simp only [Nat.zero_add, hg, Bool.false_eq_true, if_false]
      omega

/-- Characterisation of the `UnbackHugepages` loop: starting at `i`, exactly
the maximal flagged runs are offered to `unback`; the successful runs have
their `backed_` flags cleared, their total length is removed from `nbacked_`
and added to `total_unbacked_`; failed runs change nothing. -/
theorem unbackLoop_spec {N : Nat} {unback : Nat → Nat → Bool} {should : Nat → Bool} :
    ∀ (fuel i : Nat) (r : HugeRegion), N ≤ i + fuel →
      (unbackLoop N unback should fuel i r).used = r.used ∧
      (unbackLoop N unback should fuel i r).nallocs = r.nallocs ∧
      (unbackLoop N unback should fuel i r).pagesUsed = r.pagesUsed ∧
      (unbackLoop N unback should fuel i r).base = r.base ∧
      (∀ k, (unbackLoop N unback should fuel i r).backed k =
        if inSuccRun unback (runsFrom should N i) k then false else r.backed k) ∧
      (unbackLoop N unback should fuel i r).nbacked =
        r.nbacked - sumSucc unback (runsFrom should N i) ∧
      (unbackLoop N unback should fuel i r).totalUnbacked =
        r.totalUnbacked + sumSucc unback (runsFrom should N i) := by
  intro fuel
  induction fuel with
  | zero =>
    intro i r hfuel
    rw [runsFrom_of_ge (by omega)]
    simp [unbackLoop, inSuccRun, sumSucc]
  | succ fuel ih =>
    intro i r hfuel
    by_cases hiN : i < N
    · cases hsi : should i with
      | false =>
        have hstep : unbackLoop N unback should (fuel + 1) i r
            = unbackLoop N unback should fuel (i + 1) r := by
          rw [unbackLoop, if_pos hiN, hsi]
          rw [if_neg (by simp)]
        rw [hstep, runsFrom_skip (show i ≤ i + 1 by omega)
          (fun k hk hk' => by
            have he : k = i := by omega
            rw [he, hsi])]
        exact ih (i + 1) r (by omega)
      | true =>
        have hlen : 0 < runLen should N i := runLen_pos hiN hsi
        have hnext : nextRange should N i = some (i, runLen should N i) := by
          unfold nextRange
          rw [findFrom_intro (le_refl i) hiN hsi (fun k hk hk' => by omega)]
        have hruns : runsFrom should N i =
            (i, runLen should N i) :: runsFrom should N (i + runLen should N i) := by
          rw [runsFrom_eq, hnext]
        have hle := runLen_le (p := should) (P := N) (i := i)
        by_cases hub : unback i (runLen should N i)
        · have hstep : unbackLoop N unback should (fuel + 1) i r
              = unbackLoop N unback should fuel (i + runLen should N i)
                { r with
                  backed := fun k =>
                    if i ≤ k ∧ k < i + runLen should N i then false else r.backed k
                  nbacked := r.nbacked - runLen should N i
                  totalUnbacked := r.totalUnbacked + runLen should N i } := by
            rw [unbackLoop, if_pos hiN, hsi]
            rw [if_pos rfl, if_pos hub]
          obtain ⟨e1, e2, e3, e4, e5, e6, e7⟩ := ih (i + runLen should N i) _ (by omega)
          rw [hstep, hruns]
          refine ⟨e1, e2, e3, e4, ?_, ?_, ?_⟩
          · intro k
            rw [e5 k]
            simp only [inSuccRun, List.any_cons, hub, Bool.true_and]
            by_cases hk1 : i ≤ k <;> by_cases hk2 : k < i + runLen should N i <;>
              simp [hk1, hk2]
          · rw [e6]
            simp only [sumSucc, List.foldr_cons, if_pos hub]
            omega
          · rw [e7]
            simp only [sumSucc, List.foldr_cons, if_pos hub]
            omega
        · have hub' : unback i (runLen should N i) = false := by simpa using hub
          have hstep : unbackLoop N unback should (fuel + 1) i r
              = unbackLoop N unback should fuel (i + runLen should N i) r := by
            rw [unbackLoop, if_pos hiN, hsi]
            rw [if_pos rfl, if_neg hub]
          obtain ⟨e1, e2, e3, e4, e5, e6, e7⟩ := ih (i + runLen should N i) r (by omega)
          rw [hstep, hruns]
          refine ⟨e1, e2, e3, e4, ?_, ?_, ?_⟩
          · intro k
            rw [e5 k]
            simp [inSuccRun, hub']
          · rw [e6]
            simp [sumSucc, hub']
          · rw [e7]
            simp [sumSucc, hub']
    · have hstep : unbackLoop N unback should (fuel + 1) i r = r := by
        rw [unbackLoop, if_neg hiN]
      rw [hstep, runsFrom_of_ge (by omega)]
      simp [inSuccRun, sumSucc]

/-- `Inc` newly backs huge page `k` iff the range covers it, no pages were in
use on it and it was not backed. -/
def newlyBacked (P p n : Nat) (st : IncState) (k : Nat) : Bool :=
  decide (0 < overlap P p n k) && decide (st.pagesUsed k = 0) && !st.backed k

theorem overlap_zero_len {P p k : Nat} : overlap P p 0 k = 0 := by
  unfold overlap
  omega

/-- Arithmetic of one `Inc`/`Dec` iteration: the huge page `k0 = p / P`
receives exactly `here = min n ((k0+1)·P − p)` pages, the remaining range
covers `k0` no further, and every other huge page's overlap is unchanged. -/
theorem overlap_split {P p n k0 here : Nat} (hP : 0 < P) (hn : 0 < n)
    (hk0 : k0 = p / P) (hhere : here = min n ((k0 + 1) * P - p)) :
    overlap P p n k0 = here ∧ overlap P (p + here) (n - here) k0 = 0 ∧
      ∀ k, k ≠ k0 → overlap P p n k = overlap P (p + here) (n - here) k := by
  have e2 : (k0 + 1) * P = k0 * P + P := by ring
  have h2 : k0 * P ≤ p := by
    rw [hk0]
    exact Nat.div_mul_le_self p P
  have h3 : p < k0 * P + P := by
    rw [hk0]
    have hdm := Nat.div_add_mod p P
    have hml := Nat.mod_lt p hP
    have hc : P * (p / P) = p / P * P := by ring
    omega
  refine ⟨?_, ?_, ?_⟩
  · unfold overlap
    omega
  · unfold overlap
    omega
  · intro k hk
    unfold overlap
    have ek : (k + 1) * P = k * P + P := by ring
    rcases Nat.lt_or_ge k k0 with hlt | hge
    · have hmul : (k + 1) * P ≤ k0 * P := Nat.mul_le_mul_right P (by omega)
      omega
    · have hmul : (k0 + 1) * P ≤ k * P := Nat.mul_le_mul_right P (by omega)
      omega

theorem incStep_spec (here k : Nat) (st : IncState) :
    (∀ j, (incStep here k st).pagesUsed j =
      (if j = k then st.pagesUsed j + here else st.pagesUsed j)) ∧
    (∀ j, (incStep here k st).backed j =
      (st.backed j || (decide (j = k) && decide (st.pagesUsed k = 0) && !st.backed k))) ∧
    (incStep here k st).nbacked =
      st.nbacked + (if st.pagesUsed k = 0 && !st.backed k then 1 else 0) ∧
    (incStep here k st).shouldBack =
      (st.shouldBack || (decide (st.pagesUsed k = 0) && !st.backed k)) := by
  unfold incStep
  by_cases hbr : st.pagesUsed k = 0 && !st.backed k
  · rw [if_pos hbr]
    simp only [Bool.and_eq_true, decide_eq_true_eq, Bool.not_eq_true'] at hbr
    refine ⟨fun j => rfl, fun j => ?_, by simp [hbr], by simp [hbr]⟩
    by_cases hj : j = k <;> simp [hj, hbr]
  · rw [if_neg hbr]
    have hbr' : (decide (st.pagesUsed k = 0) && !st.backed k) = false := by
      simpa using hbr
    refine ⟨fun j => rfl, fun j => ?_, by simp [hbr'], by simp [hbr']⟩
    by_cases hj : j = k <;> simp [hj, hbr']

/-- Characterisation of the `Inc` loop: each covered huge page's
`pages_used_` grows by its overlap with the range; `backed_` is switched on
for exactly the newly backed huge pages; `nbacked_` grows by their number;
`should_back` latches whether there was any. -/
theorem incLoop_spec {P : Nat} (hP : 0 < P) :
    ∀ (fuel p n : Nat) (st : IncState), n ≤ fuel →
      (∀ k, (incLoop P fuel p n st).pagesUsed k = st.pagesUsed k + overlap P p n k) ∧
      (∀ k, (incLoop P fuel p n st).backed k = (st.backed k || newlyBacked P p n st k)) ∧
      (incLoop P fuel p n st).nbacked =
        st.nbacked + countTrue (newlyBacked P p n st) 0 (p + n) ∧
      (incLoop P fuel p n st).shouldBack =
        (st.shouldBack || decide (0 < countTrue (newlyBacked P p n st) 0 (p + n))) := by
  intro fuel
  induction fuel with
  | zero =>
    intro p n st hfuel
    have hn0 : n = 0 := by omega
    subst hn0
    have hnf : ∀ k, newlyBacked P p 0 st k = false := by
      intro k
      simp [newlyBacked, overlap_zero_len]
    have hcz : countTrue (newlyBacked P p 0 st) 0 p = 0 := by
      rw [countTrue_eq_zero]
      intro k hk
      exact hnf (0 + k)
    rw [incLoop]
    simp [hcz, hnf, overlap_zero_len]
  | succ fuel ih =>
    intro p n st hfuel
    by_cases hn0 : n = 0
    · subst hn0
      have hnf : ∀ k, newlyBacked P p 0 st k = false := by
        intro k
        simp [newlyBacked, overlap_zero_len]
      have hcz : countTrue (newlyBacked P p 0 st) 0 p = 0 := by
        rw [countTrue_eq_zero]
        intro k hk
        exact hnf (0 + k)
      rw [incLoop, if_pos rfl]
      simp [hcz, hnf, overlap_zero_len]
    · obtain ⟨hov1, hov2, hov3⟩ := @overlap_split P p n (p / P)
        (min n ((p / P + 1) * P - p)) hP (by omega) rfl rfl
      have h2 : p / P * P ≤ p := Nat.div_mul_le_self p P
      have h3 : p < (p / P + 1) * P := by
        have e2 : (p / P + 1) * P = p / P * P + P := by ring
        have hdm := Nat.div_add_mod p P
        have hml := Nat.mod_lt p hP
        have hc : P * (p / P) = p / P * P := by ring
        omega
      have hhere1 : 0 < min n ((p / P + 1) * P - p) := by omega
      have hherelen : min n ((p / P + 1) * P - p) ≤ n := by omega
      have hstep : incLoop P (fuel + 1) p n st =
          incLoop P fuel (p + min n ((p / P + 1) * P - p))
            (n - min n ((p / P + 1) * P - p))
            (incStep (min n ((p / P + 1) * P - p)) (p / P) st) := by
        rw [incLoop, if_neg hn0]
      obtain ⟨s1, s2, s3, s4⟩ := incStep_spec (min n ((p / P + 1) * P - p)) (p / P) st
      obtain ⟨i1, i2, i3, i4⟩ := ih (p + min n ((p / P + 1) * P - p))
        (n - min n ((p / P + 1) * P - p))
        (incStep (min n ((p / P + 1) * P - p)) (p / P) st) (by omega)
      have hkP : p / P < p + n := by
        have hkle : p / P ≤ p / P * P := Nat.le_mul_of_pos_right _ hP
        omega
      have hbound : p + min n ((p / P + 1) * P - p) + (n - min n ((p / P + 1) * P - p))
          = p + n := by omega
      -- pointwise equality of the two "newly backed" predicates away from p / P
      have hnewly : ∀ k, k ≠ p / P →
          newlyBacked P (p + min n ((p / P + 1) * P - p))
              (n - min n ((p / P + 1) * P - p))
              (incStep (min n ((p / P + 1) * P - p)) (p / P) st) k
            = newlyBacked P p n st k := by
        intro k hk
        unfold newlyBacked
        rw [s1 k, s2 k, if_neg hk, ← hov3 k hk]
        have hd : decide (k = p / P) = false := by simp [hk]
        simp [hd]
      have hnewly0 :
          newlyBacked P (p + min n ((p / P + 1) * P - p))
              (n - min n ((p / P + 1) * P - p))
              (incStep (min n ((p / P + 1) * P - p)) (p / P) st) (p / P) = false := by
        unfold newlyBacked
        rw [hov2]
        simp
      have hcount : countTrue (newlyBacked P p n st) 0 (p + n) =
          (if newlyBacked P p n st (p / P) then 1 else 0) +
            countTrue (newlyBacked P (p + min n ((p / P + 1) * P - p))
              (n - min n ((p / P + 1) * P - p))
              (incStep (min n ((p / P + 1) * P - p)) (p / P) st)) 0 (p + n) :=
        countTrue_eq_add_of hkP (fun k _ hne => (hnewly k hne).symm) hnewly0
      have hpos : decide (0 < min n ((p / P + 1) * P - p)) = true := by
        simpa using hhere1
      have hnewlyk0 : newlyBacked P p n st (p / P) =
          (decide (st.pagesUsed (p / P) = 0) && !st.backed (p / P)) := by
        unfold newlyBacked
        rw [hov1, hpos]
        simp
      refine ⟨?_, ?_, ?_, ?_⟩
      · intro k
        rw [hstep, i1 k, s1 k]
        by_cases hk : k = p / P
        · subst hk
          rw [if_pos rfl, hov2, hov1]
          omega
        · rw [if_neg hk, ← hov3 k hk]
      · intro k
        rw [hstep, i2 k, s2 k]
        by_cases hk : k = p / P
        · subst hk
          rw [hnewly0, hnewlyk0]
          simp [Bool.or_assoc]
        · rw [hnewly k hk]
          have hd : decide (k = p / P) = false := by simp [hk]
          simp [hd, Bool.or_assoc]
      · rw [hstep, i3, s3, hbound, hcount, hnewlyk0]
        omega
      · rw [hstep, i4, s4, hbound, hcount, hnewlyk0]
        by_cases hbr : (decide (st.pagesUsed (p / P) = 0) && !st.backed (p / P)) = true
        · rw [hbr]
          have hd : decide (0 < 1 + countTrue
              (newlyBacked P (p + min n ((p / P + 1) * P - p))
                (n - min n ((p / P + 1) * P - p))
                (incStep (min n ((p / P + 1) * P - p)) (p / P) st)) 0 (p + n)) = true :=
            decide_eq_true (by omega)
          simp [hd]
        · have hbr' : (decide (st.pagesUsed (p / P) = 0) && !st.backed (p / P)) = false := by
            simpa using hbr
          rw [hbr']
          simp

/-! ### HugeRegionSet (`huge_region.h`)

The intrusive `TList<Region>` is modelled as a `List HugeRegion`; an element's
position in the list carries its identity.  `Rise`/`Fall` scan from the
element's neighbours, which functionally means splitting off the maximal
adjacent segment of strictly better/worse regions. -/

/-- `HugeRegion::BetterToAllocThan`: strictly smaller `longest_free()`. -/
def betterToAllocThan (P N : Nat) (a b : HugeRegion) : Bool :=
  decide (a.longestFree P N < b.longestFree P N)

/-- `HugeRegionSet`: region count, the
`TEST_ONLY_TCMALLOC_USE_HUGE_REGIONS_MORE_OFTEN` option, and the region list
sorted by `longest_free` increasing. -/
structure HugeRegionSet where
  n : Nat
  useHugeRegionMoreOften : Bool
  list : List HugeRegion

/-- `HugeRegionSet::Fix(r)` = `Rise(r)` then `Fall(r)`, with `r` between
`before` and `after`.  `Rise` removes `r` and re-inserts it left of the
maximal suffix of `before` it is better than (scanning backward from its
predecessor); `Fall` then does the symmetric forward scan. -/
def fixList (key : HugeRegion → Nat) (r : HugeRegion) (before after : List HugeRegion) :
    List HugeRegion :=
  let b2 := (before.reverse.takeWhile fun e => decide (key r < key e)).reverse
  let b1 := (before.reverse.dropWhile fun e => decide (key r < key e)).reverse
  let a1 := (b2 ++ after).takeWhile fun e => decide (key e < key r)
  let a2 := (b2 ++ after).dropWhile fun e => decide (key e < key r)
  b1 ++ a1 ++ r :: a2

/-- `HugeRegionSet::AddToList(r)`: insert `r` before the first region it is
better than; append when there is none. -/
def addToList (key : HugeRegion → Nat) (r : HugeRegion) (l : List HugeRegion) :
    List HugeRegion :=
  (l.takeWhile fun c => !decide (key r < key c)) ++
    r :: (l.dropWhile fun c => !decide (key r < key c))

/-- Scan of `HugeRegionSet::MaybeGet`: the first region whose `MaybeGet`
succeeds, returned with its updated value and the surrounding list split. -/
def setMaybeGetGo (P N n : Nat) :
    List HugeRegion →
      Option ((Nat × Bool) × List HugeRegion × HugeRegion × List HugeRegion)
  | [] => none
  | r :: rest =>
    match r.maybeGet P N n with
    | some (ans, r') => some (ans, [], r', rest)
    | none =>
      match setMaybeGetGo P N n rest with
      | none => none
      | some (ans, b, r', a) => some (ans, r :: b, r', a)

/-- `HugeRegionSet::MaybeGet(n, page, from_released)`. -/
def HugeRegionSet.maybeGet (P N : Nat) (s : HugeRegionSet) (n : Nat) :
    Option ((Nat × Bool) × HugeRegionSet) :=
  match setMaybeGetGo P N n s.list with
  | none => none
  | some (ans, b, r', a) =>
    some (ans, { s with list := fixList (fun x => x.longestFree P N) r' b a })

/-- Scan of `HugeRegionSet::MaybePut`: the first region containing `p`,
after its `Put`, with the surrounding list split. -/
def setMaybePutGo (P N : Nat) (unback : Nat → Nat → Bool) (p n : Nat)
    (release : Bool) :
    List HugeRegion → Option (List HugeRegion × HugeRegion × List HugeRegion)
  | [] => none
  | r :: rest =>
    if r.contains P N p then some ([], r.put P N unback p n release, rest)
    else
      match setMaybePutGo P N unback p n release rest with
      | none => none
      | some (b, r', a) => some (r :: b, r', a)

/-- `HugeRegionSet::MaybePut(p, n)`: release on put unless the
use-huge-regions-more-often option is set. -/
def HugeRegionSet.maybePut (P N : Nat) (unback : Nat → Nat → Bool)
    (s : HugeRegionSet) (p n : Nat) : Bool × HugeRegionSet :=
  let release := !s.useHugeRegionMoreOften
  match setMaybePutGo P N unback p n release s.list with
  | none => (false, s)
  | some (b, r', a) =>
    (true, { s with list := fixList (fun x => x.longestFree P N) r' b a })

/-- `HugeRegionSet::Contribute(region)`. -/
def HugeRegionSet.contribute (P N : Nat) (s : HugeRegionSet) (r : HugeRegion) :
    HugeRegionSet :=
  { s with n := s.n + 1, list := addToList (fun x => x.longestFree P N) r s.list }

/-- `HugeRegionSet::ReleasePages(release_fraction)`: release from every
region; the result (in small pages) is the sum of the per-region
`Release(..).in_pages()`. -/
def HugeRegionSet.releasePages (P N : Nat) (unback : Nat → Nat → Bool)
    (fraction : ℚ) (s : HugeRegionSet) : Nat × HugeRegionSet :=
  let results := s.list.map fun r => HugeRegion.release P N unback fraction r
  ((results.map fun x => x.1 * P).sum, { s with list := results.map fun x => x.2 })

/-- Ascending order by a key, the `HugeRegionSet` sort invariant. -/
def keySorted (key : HugeRegion → Nat) (l : List HugeRegion) : Prop :=
  l.Pairwise fun a b => key a ≤ key b

theorem dropWhile_le_of_desc {key : HugeRegion → Nat} {c : Nat} :
    ∀ {l : List HugeRegion}, l.Pairwise (fun a b => key b ≤ key a) →
      ∀ x ∈ l.dropWhile fun e => decide (c < key e), key x ≤ c := by
  intro l
  induction l with
  | nil => intro _ x hx; simp at hx
  | cons e l ihl =>
    intro hp x hx
    rw [List.dropWhile_cons] at hx
    by_cases he : c < key e
    · rw [if_pos (by simpa using he)] at hx
      exact ihl (List.Pairwise.sublist (List.sublist_cons_self e l) hp) x hx
    · rw [if_neg (by simpa using he)] at hx
      rcases List.mem_cons.mp hx with rfl | hxl
      · omega
      · have := (List.pairwise_cons.mp hp).1 x hxl
        omega

theorem dropWhile_ge_of_asc {key : HugeRegion → Nat} {c : Nat} :
    ∀ {l : List HugeRegion}, l.Pairwise (fun a b => key a ≤ key b) →
      ∀ x ∈ l.dropWhile fun e => decide (key e < c), c ≤ key x := by
  intro l
  induction l with
  | nil => intro _ x hx; simp at hx
  | cons e l ihl =>
    intro hp x hx
    rw [List.dropWhile_cons] at hx
    by_cases he : key e < c
    · rw [if_pos (by simpa using he)] at hx
      exact ihl (List.Pairwise.sublist (List.sublist_cons_self e l) hp) x hx
    · rw [if_neg (by simpa using he)] at hx
      rcases List.mem_cons.mp hx with rfl | hxl
      · omega
      · have := (List.pairwise_cons.mp hp).1 x hxl
        omega

theorem dropWhile_gt_of_asc {key : HugeRegion → Nat} {c : Nat} :
    ∀ {l : List HugeRegion}, l.Pairwise (fun a b => key a ≤ key b) →
      ∀ x ∈ l.dropWhile fun e => !decide (c < key e), c ≤ key x := by
  intro l
  induction l with
  | nil => intro _ x hx; simp at hx
  | cons e l ihl =>
    intro hp x hx
    rw [List.dropWhile_cons] at hx
    by_cases he : c < key e
    · rw [if_neg (by simpa using he)] at hx
      rcases List.mem_cons.mp hx with rfl | hxl
      · omega
      · have := (List.pairwise_cons.mp hp).1 x hxl
        omega
    · rw [if_pos (by simpa using he)] at hx
      exact ihl (List.Pairwise.sublist (List.sublist_cons_self e l) hp) x hx

/-- `Fix` restores the sort invariant: if the lists around the touched region
are sorted and mutually ordered, the fixed-up list is sorted. -/
theorem fixList_sorted {key : HugeRegion → Nat} {r : HugeRegion}
    {b a : List HugeRegion} (hb : keySorted key b) (ha : keySorted key a)
    (hcross : ∀ x ∈ b, ∀ y ∈ a, key x ≤ key y) :
    keySorted key (fixList key r b a) := by
  unfold fixList keySorted
  have hsplitb : (b.reverse.dropWhile fun e => decide (key r < key e)).reverse ++
      (b.reverse.takeWhile fun e => decide (key r < key e)).reverse = b := by
    rw [← List.reverse_append, List.takeWhile_append_dropWhile, List.reverse_reverse]
  have hbrev : b.reverse.Pairwise fun x y => key y ≤ key x :=
    List.pairwise_reverse.mpr hb
  have hb1le : ∀ x ∈ (b.reverse.dropWhile fun e => decide (key r < key e)).reverse,
      key x ≤ key r := by
    intro x hx
    rw [List.mem_reverse] at hx
    exact dropWhile_le_of_desc hbrev x hx
  have hb2gt : ∀ x ∈ (b.reverse.takeWhile fun e => decide (key r < key e)).reverse,
      key r < key x := by
    intro x hx
    rw [List.mem_reverse] at hx
    have := List.mem_takeWhile_imp hx
    simpa using this
  have hbsp : ((b.reverse.dropWhile fun e => decide (key r < key e)).reverse ++
      (b.reverse.takeWhile fun e => decide (key r < key e)).reverse).Pairwise
        fun x y => key x ≤ key y := by
    rw [hsplitb]
    exact hb
  obtain ⟨hb1p, hb2p, hb12⟩ := List.pairwise_append.mp hbsp
  have hba : (((b.reverse.takeWhile fun e => decide (key r < key e)).reverse) ++ a).Pairwise
      fun x y => key x ≤ key y := by
    rw [List.pairwise_append]
    refine ⟨hb2p, ha, ?_⟩
    intro x hx y hy
    exact hcross x (by rw [← hsplitb]; exact List.mem_append_right _ hx) y hy
  have hasp : ((((b.reverse.takeWhile fun e => decide (key r < key e)).reverse ++ a)
        |>.takeWhile fun e => decide (key e < key r)) ++
      (((b.reverse.takeWhile fun e => decide (key r < key e)).reverse ++ a)
        |>.dropWhile fun e => decide (key e < key r))).Pairwise
        fun x y => key x ≤ key y := by
    rw [List.takeWhile_append_dropWhile]
    exact hba
  obtain ⟨ha1p, ha2p, ha12⟩ := List.pairwise_append.mp hasp
  have ha1lt : ∀ x ∈ ((b.reverse.takeWhile fun e => decide (key r < key e)).reverse ++ a)
      |>.takeWhile fun e => decide (key e < key r), key x < key r := by
    intro x hx
    have := List.mem_takeWhile_imp hx
    simpa using this
  have ha2ge : ∀ x ∈ ((b.reverse.takeWhile fun e => decide (key r < key e)).reverse ++ a)
      |>.dropWhile fun e => decide (key e < key r), key r ≤ key x := by
    intro x hx
    exact dropWhile_ge_of_asc hba x hx
  have hcb1 : ∀ x ∈ (b.reverse.dropWhile fun e => decide (key r < key e)).reverse,
      ∀ y ∈ (b.reverse.takeWhile fun e => decide (key r < key e)).reverse ++ a,
        key x ≤ key y := by
    intro x hx y hy
    rcases List.mem_append.mp hy with hy2 | hya
    · exact hb12 x hx y hy2
    · exact hcross x (by rw [← hsplitb]; exact List.mem_append_left _ hx) y hya
  rw [List.pairwise_append]
  refine ⟨?_, ?_, ?_⟩
  · rw [List.pairwise_append]
    refine ⟨hb1p, ha1p, ?_⟩
    intro x hx y hy
    exact hcb1 x hx y ((List.takeWhile_sublist _).subset hy)
  · rw [List.pairwise_cons]
    exact ⟨fun y hy => ha2ge y hy, ha2p⟩
  · intro x hx y hy
    rcases List.mem_append.mp hx with hx1 | hx2
    · rcases List.mem_cons.mp hy with rfl | hy2
      · exact hb1le x hx1
      · exact hcb1 x hx1 y ((List.dropWhile_sublist _).subset hy2)
    · rcases List.mem_cons.mp hy with rfl | hy2
      · exact le_of_lt (ha1lt x hx2)
      · exact ha12 x hx2 y hy2

/-- Sorted insertion of `AddToList`. -/
theorem addToList_sorted {key : HugeRegion → Nat} {r : HugeRegion}
    {l : List HugeRegion} (hl : keySorted key l) :
    keySorted key (addToList key r l) := by
  unfold addToList keySorted
  have hsp : ((l.takeWhile fun c => !decide (key r < key c)) ++
      (l.dropWhile fun c => !decide (key r < key c))).Pairwise
        fun x y => key x ≤ key y := by
    rw [List.takeWhile_append_dropWhile]
    exact hl
  obtain ⟨htp, hdp, htd⟩ := List.pairwise_append.mp hsp
  have htle : ∀ x ∈ l.takeWhile fun c => !decide (key r < key c), key x ≤ key r := by
    intro x hx
    have := List.mem_takeWhile_imp hx
    simp at this
    omega
  have hdge : ∀ x ∈ l.dropWhile fun c => !decide (key r < key c), key r ≤ key x :=
    fun x hx => dropWhile_gt_of_asc hl x hx
  rw [List.pairwise_append]
  refine ⟨htp, ?_, ?_⟩
  · rw [List.pairwise_cons]
    exact ⟨fun y hy => hdge y hy, hdp⟩
  · intro x hx y hy
    rcases List.mem_cons.mp hy with rfl | hy'
    · exact htle x hx
    · exact htd x hx y hy'

theorem setMaybeGetGo_decomp {P N n : Nat} :
    ∀ {l : List HugeRegion} {ans b r' a},
      setMaybeGetGo P N n l = some (ans, b, r', a) → ∃ r0, l = b ++ r0 :: a := by
  intro l
  induction l with
  | nil => intro ans b r' a h; simp [setMaybeGetGo] at h
  | cons r rest ih =>
    intro ans b r' a h
    rw [setMaybeGetGo] at h
    cases hm : r.maybeGet P N n with
    | some res =>
      rw [hm] at h
      obtain ⟨res1, res2⟩ := res
      simp at h
      obtain ⟨rfl, rfl, rfl, rfl⟩ := h
      exact ⟨r, rfl⟩
    | none =>
      rw [hm] at h
      cases hrec : setMaybeGetGo P N n rest with
      | none => rw [hrec] at h; simp at h
      | some res =>
        obtain ⟨ans1, b1, r1, a1⟩ := res
        rw [hrec] at h
        simp at h
        obtain ⟨rfl, rfl, rfl, rfl⟩ := h
        obtain ⟨r0, hr0⟩ := ih hrec
        exact ⟨r0, by rw [hr0]; rfl⟩

theorem setMaybePutGo_decomp {P N p n : Nat} {unback : Nat → Nat → Bool}
    {release : Bool} :
    ∀ {l : List HugeRegion} {b r' a},
      setMaybePutGo P N unback p n release l = some (b, r', a) →
        ∃ r0, l = b ++ r0 :: a := by
  intro l
  induction l with
  | nil => intro b r' a h; simp [setMaybePutGo] at h
  | cons r rest ih =>
    intro b r' a h
    rw [setMaybePutGo] at h
    by_cases hc : r.contains P N p = true
    · rw [if_pos hc] at h
      simp at h
      obtain ⟨rfl, rfl, rfl⟩ := h
      exact ⟨r, rfl⟩
    · rw [if_neg hc] at h
      cases hrec : setMaybePutGo P N unback p n release rest with
      | none => rw [hrec] at h; simp at h
      | some res =>
        obtain ⟨b1, r1, a1⟩ := res
        rw [hrec] at h
        simp at h
        obtain ⟨rfl, rfl, rfl⟩ := h
        obtain ⟨r0, hr0⟩ := ih hrec
        exact ⟨r0, by rw [hr0]; rfl⟩

/-- `Release` never touches the range tracker, so `longest_free()` is
unchanged — the sort key survives `ReleasePages`. -/
theorem release_preserves_key {P N : Nat} {unback : Nat → Nat → Bool}
    {fraction : ℚ} {r : HugeRegion} :
    ((HugeRegion.release P N unback fraction r).2).longestFree P N =
      r.longestFree P N := by
  unfold HugeRegion.release HugeRegion.longestFree
  have h := (@unbackLoop_spec N unback
    ((releaseFlagsLoop N
      (max (⌊((r.freeBacked N : ℚ)) * (min (max fraction 0) 1)⌋.toNat) 1)
      r N 0 (fun _ => false) 0).1) N 0 r (by omega)).1
  rw [h]

/-! ### HugePageFiller (`huge_page_filler.h`)

`AccessDensityPrediction` has two used values; the hinted tracker lists are
modelled as bin-indexed lists of trackers (`HintedTrackerLists` itself is
modelled from the spec: one list per bin, `GetLeast(k)` pops from the first
non-empty bin `≥ k`). -/

inductive Density where
  | sparse
  | dense
deriving DecidableEq

/-- `HugePageFiller`: the tracker lists and counters `TryGet`/`Contribute`
touch. -/
structure Filler where
  chunks : Nat
  separate : Bool
  regular : Density → Nat → List PageTracker
  donated : Nat → List PageTracker
  partReleased : Density → Nat → List PageTracker
  released : Density → Nat → List PageTracker
  nUsedReleased : Density → Nat
  nUsedPartialReleased : Density → Nat
  nWasReleased : Density → Nat
  pagesAllocated : Density → Nat
  unmapped : Nat
  size : Nat
  unmappingUnaccounted : Nat

/-- `__builtin_clzl` on a 64-bit `size_t` for a nonzero argument. -/
def clz64 (n : Nat) : Nat := 63 - Nat.log2 n

/-- `HugePageFiller::IndexFor(pt)`: logarithmic quantisation of `nallocs()`
into `[0, chunks_per_alloc_)`. -/
def indexFor (chunks : Nat) (pt : PageTracker) : Nat :=
  let negCeilLog := clz64 (2 * pt.nallocs - 1)
  let kOffset := clz64 1 - (chunks - 1)
  max negCeilLog kOffset - kOffset

/-- `HugePageFiller::ListFor(longest, chunk)`. -/
def listFor (chunks longest chunk : Nat) : Nat := longest * chunks + chunk

/-- Modelled from the spec: `HintedTrackerLists::GetLeast(k)` — pop a tracker
from the first non-empty list with index in `[k, bound)`. -/
def getLeast (lists : Nat → List PageTracker) (bound k : Nat) :
    Option (Nat × PageTracker) :=
  match findFrom (fun i => !(lists i).isEmpty) bound k with
  | none => none
  | some i =>
    match lists i with
    | [] => none
    | pt :: _ => some (i, pt)

/-- Remove the head of bin `i`. -/
def popBin (lists : Nat → List PageTracker) (i : Nat) : Nat → List PageTracker :=
  fun j => if j = i then (lists j).tail else lists j

/-- Add `pt` to bin `i`. -/
def pushBin (lists : Nat → List PageTracker) (i : Nat) (pt : PageTracker) :
    Nat → List PageTracker :=
  fun j => if j = i then pt :: lists j else lists j

/-- Pointwise update of a per-density value. -/
def updD (f : Density → Nat) (d : Density) (v : Nat) : Density → Nat :=
  fun d' => if d' = d then v else f d'

/-- The density routing shared by `TryGet`, `Contribute` and the filler-list
helpers: dense only with `kSeparateAllocs` and a dense span/tracker. -/
def densityFor (separate : Bool) (dense : Bool) : Density :=
  if separate && dense then Density.dense else Density.sparse

/-- `HugePageFiller::AddToFillerList(pt)`: clear the donated flag, then file
under `regular`, `regular_released` or `regular_partial_released` according
to the released state, updating the used-page counters of the subreleased
lists. -/
def addToFillerList (P : Nat) (f : Filler) (pt0 : PageTracker) : Filler :=
  let chunk := indexFor f.chunks pt0
  let pt := { pt0 with donated := false }
  let i := listFor f.chunks (pt.longestFreeRange P) chunk
  let d := densityFor f.separate pt.hasDenseSpans
  if ¬ pt.isReleased then { f with regular := fun d' => if d' = d then pushBin (f.regular d) i pt else f.regular d' }
  else if pt.freePages P ≤ pt.releasedPages then
    { f with
      released := fun d' => if d' = d then pushBin (f.released d) i pt else f.released d'
      nUsedReleased := updD f.nUsedReleased d (f.nUsedReleased d + pt.usedPages P) }
  else
    { f with
      partReleased := fun d' => if d' = d then pushBin (f.partReleased d) i pt else f.partReleased d'
      nUsedPartialReleased :=
        updD f.nUsedPartialReleased d (f.nUsedPartialReleased d + pt.usedPages P) }

/-- `HugePageFiller::DonateToFillerList(pt)`: set the donated flag and file
into `donated_alloc_` by `longest_free_range()`. -/
def donateToFillerList (P : Nat) (f : Filler) (pt0 : PageTracker) : Filler :=
  let pt := { pt0 with donated := true }
  { f with donated := pushBin f.donated (pt.longestFreeRange P) pt }

/-- The selection phase of `HugePageFiller::TryGet`: search
`regular_alloc_[type]`, then (sparse only) `donated_alloc_`, then
`regular_alloc_partial_released_[type]`, then `regular_alloc_released_[type]`,
each from the first list that can hold a free range of `n` pages.  The chosen
tracker is popped from its list, the subreleased-list used counters are
discharged, and the second Bool reports whether a subreleased list supplied
the tracker (`was_released` in the source). -/
def tryGetSelect (P : Nat) (f : Filler) (n : Nat) (d : Density) :
    Option (Filler × PageTracker × Bool) :=
  match getLeast (f.regular d) (P * f.chunks) (listFor f.chunks n 0) with
  | some (i, pt) =>
    some ({ f with regular := fun d' => if d' = d then popBin (f.regular d) i else f.regular d' },
      pt, false)
  | none =>
    match
      (if d = Density.sparse then getLeast f.donated P n else none) with
    | some (i, pt) => some ({ f with donated := popBin f.donated i }, pt, false)
    | none =>
      match getLeast (f.partReleased d) (P * f.chunks) (listFor f.chunks n 0) with
      | some (i, pt) =>
        some ({ f with
          partReleased := fun d' => if d' = d then popBin (f.partReleased d) i else f.partReleased d'
          nUsedPartialReleased :=
            updD f.nUsedPartialReleased d (f.nUsedPartialReleased d - pt.usedPages P) },
          pt, true)
      | none =>
        match getLeast (f.released d) (P * f.chunks) (listFor f.chunks n 0) with
        | some (i, pt) =>
          some ({ f with
            released := fun d' => if d' = d then popBin (f.released d) i else f.released d'
            nUsedReleased := updD f.nUsedReleased d (f.nUsedReleased d - pt.usedPages P) },
            pt, true)
        | none => none

/-- `HugePageFiller::TryGet(n, span_alloc_info)`.  After selection the
tracker's `Get(n)` runs, the `was_released` toggle is recorded, the tracker
returns to a filler list and the page counters are updated.  (The source
flips `was_released_` on the tracker object after `AddToFillerList`; the
flag does not participate in list placement, so the update is applied to the
tracker value before re-adding.) -/
def Filler.tryGet (P : Nat) (f : Filler) (n : Nat) (dense : Bool) :
    Option (PageTracker × Nat × Bool) × Filler :=
  let d := densityFor f.separate dense
  match tryGetSelect P f n d with
  | none => (none, f)
  | some (f1, pt, wasRel) =>
    match pt.get P n with
    | none => (none, f)
    | some ((page, unbacked), pt') =>
      let doFlag := wasRel && !pt'.isReleased && !pt'.wasReleased
      let ptF := if doFlag then { pt' with wasReleased := true } else pt'
      let f2 := addToFillerList P f1 ptF
      (some (ptF, page, wasRel),
        { f2 with
          pagesAllocated := updD f2.pagesAllocated d (f2.pagesAllocated d + n)
          nWasReleased :=
            if doFlag then updD f2.nWasReleased d (f2.nWasReleased d + 1)
            else f2.nWasReleased
          unmapped := f2.unmapped - unbacked })

/-- The assertion that fires in `HugePageFiller::Contribute`. -/
inductive ContributeError where
  | releasedNonZero
  | denseDonated
  | notWasDonated
  | donatedReleased
deriving DecidableEq

/-- `HugePageFiller::Contribute(pt, donated, span_alloc_info)`, with each
`ASSERT` on its path modelled as an error value (debug builds abort there;
the first check is `ASSERT(pt->released_pages() == Length(0))`). -/
def Filler.contribute (P : Nat) (f : Filler) (pt : PageTracker)
    (donated : Bool) (dense : Bool) : Except ContributeError Filler :=
  if pt.releasedPages ≠ 0 then .error .releasedNonZero
  else
    let d := densityFor f.separate dense
    let f1 := { f with pagesAllocated := updD f.pagesAllocated d (f.pagesAllocated d + pt.usedPages P) }
    if d = Density.dense ∧ donated then .error .denseDonated
    else if donated then
      if ¬ pt.wasDonated then .error .notWasDonated
      else if pt.isReleased then .error .donatedReleased
      else .ok { donateToFillerList P f1 pt with size := f1.size + 1 }
    else
      let pt1 := if d = Density.dense then { pt with hasDenseSpans := true } else pt
      .ok { addToFillerList P f1 pt1 with size := f1.size + 1 }

/-! ### FillerStatsTracker / skip-subrelease (`huge_page_filler.h`)

`TimeSeriesTracker` is not in this snapshot; it is modelled from the spec as
a list of epoch entries, offset 0 = the current epoch, rotation driven by an
explicit `advance` parameter (the wall clock is external). -/

/-- The slice of a `FillerStatsEntry` that `GetRecentPeak`/`GetRecentDemand`
read: emptiness and `num_pages` of the max- and min-demand snapshots. -/
structure FillerStatsEpoch where
  isEmpty : Bool
  maxDemand : Nat
  minDemand : Nat

/-- The accumulator-style iteration the source lambdas run over
`IterBackwards`: take the running maximum of `f e` over non-empty entries. -/
def iterMax (f : FillerStatsEpoch → Nat) : List FillerStatsEpoch → Nat → Nat
  | [], acc => acc
  | e :: es, acc => iterMax f es (if !e.isEmpty && decide (acc < f e) then f e else acc)

/-- `FillerStatsTracker::GetRecentPeak(peak_interval)`: max demand over the
last `numEpochs` epochs. -/
def getRecentPeak (entries : List FillerStatsEpoch) (numEpochs : Nat) : Nat :=
  iterMax (fun e => e.maxDemand) (entries.take numEpochs) 0

/-- `FillerStatsTracker::GetRecentDemand(short_interval, long_interval)`:
short-term fluctuation plus long-term trend, capped by the all-time demand
peak. -/
def getRecentDemand (entries : List FillerStatsEpoch) (shortE longE : Nat) : Nat :=
  let shortTerm := iterMax (fun e => e.maxDemand - e.minDemand) (entries.take shortE) 0
  let longTerm := iterMax (fun e => e.minDemand) (entries.take longE) 0
  let demandPeak := iterMax (fun e => e.maxDemand) entries 0
  min demandPeak (shortTerm + longTerm)

/-- The fold of `UpdateFillerStatsTracker`'s `Report` into the current
epoch's entry (`FillerStatsEntry::Report` seeds an empty entry with the
sample, then takes min/max of `num_pages`). -/
def reportDemand (pages : Nat) : List FillerStatsEpoch → List FillerStatsEpoch
  | [] => []
  | e :: es =>
    (if e.isEmpty then ⟨false, pages, pages⟩
     else ⟨false, max e.maxDemand pages, min e.minDemand pages⟩) :: es

/-- `SkipSubreleaseIntervals` with durations in clock ticks. -/
structure SkipSubreleaseIntervals where
  peakInterval : Nat
  shortInterval : Nat
  longInterval : Nat

def SkipSubreleaseIntervals.isPeakIntervalSet (iv : SkipSubreleaseIntervals) : Bool :=
  decide (iv.peakInterval ≠ 0)

def SkipSubreleaseIntervals.skipSubreleaseEnabled (iv : SkipSubreleaseIntervals) : Bool :=
  decide (iv.peakInterval ≠ 0) || decide (iv.shortInterval ≠ 0) ||
    decide (iv.longInterval ≠ 0)

/-- The demand requirement `GetDesiredSubreleasePages` computes after
`UpdateFillerStatsTracker()` folded the current demand into the current
epoch: the recent peak when `peak_interval` is set, else the recent demand
(short-term fluctuation plus long-term trend, capped by the demand peak). -/
def requiredPages (epochLen kE : Nat) (entries : List FillerStatsEpoch)
    (usedPages : Nat) (iv : SkipSubreleaseIntervals) : Nat :=
  let entries1 := reportDemand usedPages entries
  if iv.isPeakIntervalSet then
    getRecentPeak entries1 (min (iv.peakInterval / epochLen) kE)
  else
    getRecentDemand entries1 (min (iv.shortInterval / epochLen) kE)
      (min (iv.longInterval / epochLen) kE)

/-- `HugePageFiller::GetDesiredSubreleasePages(desired, total_released,
intervals)`, over the state it reads: the stats epochs, `used_pages()` and
`free_pages()`.  `UpdateFillerStatsTracker()` first folds the current demand
into the current epoch.  The second component is the
`ReportSkippedSubreleasePages(skipped, peak)` call the function issues, if
any (`FillerStatsTracker` drops a report of zero skipped pages). -/
def getDesiredSubreleasePages (epochLen kE : Nat)
    (entries : List FillerStatsEpoch) (usedPages freePages : Nat)
    (desired released : Nat) (iv : SkipSubreleaseIntervals) :
    Nat × Option (Nat × Nat) :=
  if !iv.skipSubreleaseEnabled then (desired, none)
  else
    let required := requiredPages epochLen kE entries usedPages iv
    let current := usedPages + freePages
    if required ≠ 0 then
      let newDesired := if current ≤ required then released else released + (current - required)
      if desired ≤ newDesired then (desired, none)
      else
        let releasable := min freePages (newDesired - released)
        let skipped := min (freePages - releasable) (desired - newDesired)
        (newDesired, if skipped = 0 then none else some (skipped, min current required))
    else (desired, none)

/-! ### SkippedSubreleaseCorrectnessTracker -/

/-- `SkippedSubreleaseDecision`. -/
structure Decision where
  pages : Nat
  count : Nat
deriving DecidableEq

instance : Add Decision := ⟨fun a b => ⟨a.pages + b.pages, a.count + b.count⟩⟩

def Decision.zero : Decision := ⟨0, 0⟩

/-- `SkippedSubreleaseEntry`. -/
structure SSEntry where
  decisions : Decision
  maxAtDecision : Nat
  intervalEpochs : Nat
  maxConfirmedPeak : Nat

def SSEntry.nil : SSEntry := ⟨Decision.zero, 0, 0, 0⟩

/-- `SkippedSubreleaseUpdate`. -/
structure SSUpdate where
  decision : Decision
  numPagesAtDecision : Nat
  intervalEpochs : Nat
  confirmedPeak : Nat

/-- `SkippedSubreleaseEntry::Report(update)`. -/
def SSEntry.report (e : SSEntry) (u : SSUpdate) : SSEntry :=
  { decisions := e.decisions + u.decision
    maxAtDecision := max e.maxAtDecision u.numPagesAtDecision
    intervalEpochs := max e.intervalEpochs u.intervalEpochs
    maxConfirmedPeak := max e.maxConfirmedPeak u.confirmedPeak }

/-- Modelled from the spec: `TimeSeriesTracker` epoch rotation — `advance`
new empty epochs enter at offset 0, old ones fall off a ring of `kE`
entries. -/
def rotateEpochs (kE advance : Nat) (entries : List SSEntry) : List SSEntry :=
  (List.replicate (min advance kE) SSEntry.nil ++ entries).take kE

/-- Modelled from the spec: `TimeSeriesTracker::Report(update)` — rotate per
the clock, fold the update into the current epoch; returns whether any epoch
passed. -/
def tsReport (kE advance : Nat) (u : SSUpdate) (entries : List SSEntry) :
    Bool × List SSEntry :=
  (decide (0 < advance),
    match rotateEpochs kE advance entries with
    | [] => []
    | e :: es => e.report u :: es)

/-- `SkippedSubreleaseCorrectnessTracker`. -/
structure SSCT where
  entries : List SSEntry
  lastConfirmedPeak : Nat
  total : Decision
  correct : Decision
  pending : Decision

/-- `SkippedSubreleaseCorrectnessTracker::ReportSkippedSubreleasePages`. -/
def SSCT.reportSkippedSubreleasePages (kE advance : Nat) (t : SSCT)
    (skippedPages peakPages intervalEpochs : Nat) : SSCT :=
  { t with
    total := t.total + ⟨skippedPages, 1⟩
    pending := t.pending + ⟨skippedPages, 1⟩
    entries := (tsReport kE advance
      ⟨⟨skippedPages, 1⟩, peakPages, intervalEpochs, 0⟩ t.entries).2 }

/-- The `IterBackwards` lambda of `ReportUpdatedPeak`, offsets counted from
`offset`: skip offset 0; move a considered entry's decisions to the correct
accumulator when its recorded peak is confirmed by `currentPeak`, else to the
pending accumulator; track the largest already-confirmed peak. -/
def rupFold (currentPeak : Nat) :
    List SSEntry → Nat → Nat → Decision → Decision → Decision × Decision
  | [], _, _, corr, pend => (corr, pend)
  | e :: es, offset, largest, corr, pend =>
    if offset = 0 then rupFold currentPeak es (offset + 1) largest corr pend
    else
      let hit := 0 < e.decisions.count ∧ largest < e.maxAtDecision ∧
        offset ≤ e.intervalEpochs
      let corr' := if hit ∧ e.maxAtDecision ≤ currentPeak then corr + e.decisions else corr
      let pend' := if hit ∧ ¬ e.maxAtDecision ≤ currentPeak then pend + e.decisions else pend
      rupFold currentPeak es (offset + 1) (max largest e.maxConfirmedPeak) corr' pend'

/-- `SkippedSubreleaseCorrectnessTracker::ReportUpdatedPeak(current_peak)`. -/
def SSCT.reportUpdatedPeak (kE advance : Nat) (t : SSCT) (currentPeak : Nat) : SSCT :=
  let rep := tsReport kE advance ⟨Decision.zero, 0, 0, currentPeak⟩ t.entries
  let lcp0 := if rep.1 then 0 else t.lastConfirmedPeak
  let folded := rupFold currentPeak rep.2 0 lcp0 t.correct Decision.zero
  { t with
    entries := rep.2
    correct := folded.1
    pending := folded.2
    lastConfirmedPeak := max lcp0 currentPeak }

/-- The operations the correctness tracker sees over time. -/
inductive SSOp where
  | skipped (advance skippedPages peakPages intervalEpochs : Nat)
  | updatedPeak (advance currentPeak : Nat)

def applySSOp (kE : Nat) (t : SSCT) : SSOp → SSCT
  | .skipped advance sp pp ie => t.reportSkippedSubreleasePages kE advance sp pp ie
  | .updatedPeak advance cp => t.reportUpdatedPeak kE advance cp

def applySSOps (kE : Nat) (t : SSCT) (ops : List SSOp) : SSCT :=
  ops.foldl (applySSOp kE) t

/-! ### Helper lemmas for the claim theorems -/

/-- A position inside a failed run is in no accepted run: maximal runs are
disjoint. -/
theorem inSuccRun_false_of_failed {p : Nat → Bool} {P i : Nat}
    {unback : Nat → Nat → Bool} {r : Nat × Nat} {j : Nat}
    (hr : r ∈ runsFrom p P i) (hf : unback r.1 r.2 = false)
    (h1 : r.1 ≤ j) (h2 : j < r.1 + r.2) :
    inSuccRun unback (runsFrom p P i) j = false := by
  unfold inSuccRun
  rw [List.any_eq_false]
  intro r' hr'
  by_cases he : r = r'
  · subst he
    simp [hf]
  · rcases Nat.lt_or_ge j r'.1 with hlt | hge
    · have hd : decide (r'.1 ≤ j) = false := by simp; omega
      simp [hd]
    · have hb : ¬ j < r'.1 + r'.2 := fun hb =>
        he (runsFrom_unique hr hr' h1 h2 hge hb)
      have hd : decide (j < r'.1 + r'.2) = false := by simp [hb]
      simp [hd]

/-- A run accepted by an always-true `unback` covers every position of every
run; with total coverage the residual free-and-backed set is empty. -/
theorem countTrue_pos_iff {p : Nat → Bool} {B : Nat} :
    0 < countTrue p 0 B ↔ ∃ k, k < B ∧ p k = true := by
  constructor
  · intro h
    by_contra hc
    push_neg at hc
    have : countTrue p 0 B = 0 := countTrue_eq_zero.mpr fun k hk => by
      have hne := hc (0 + k)
      rcases hb : p (0 + k) with _ | _
      · rfl
      · exact absurd hb (hne (by omega))
    omega
  · intro ⟨k, hk, hp⟩
    by_contra hc
    have h0 : countTrue p 0 B = 0 := by omega
    have := countTrue_eq_zero.mp h0 k hk
    rw [Nat.zero_add] at this
    rw [this] at hp
    cases hp

/-- Splitting the sort invariant around a removed element. -/
theorem pairwiseSplit {key : HugeRegion → Nat} {b a : List HugeRegion}
    {r0 : HugeRegion} (h : keySorted key (b ++ r0 :: a)) :
    keySorted key b ∧ keySorted key a ∧ ∀ x ∈ b, ∀ y ∈ a, key x ≤ key y := by
  unfold keySorted at h ⊢
  obtain ⟨hb, hca, hcross⟩ := List.pairwise_append.mp h
  obtain ⟨hr0, ha⟩ := List.pairwise_cons.mp hca
  exact ⟨hb, ha, fun x hx y hy => hcross x hx y (List.mem_cons_of_mem _ hy)⟩

/-- `GetLeast` pops from a bin at or above the request, within the bound. -/
theorem getLeast_eq_some {lists : Nat → List PageTracker} {bound k i : Nat}
    {pt : PageTracker} (h : getLeast lists bound k = some (i, pt)) :
    k ≤ i ∧ i < bound ∧ pt ∈ lists i := by
  unfold getLeast at h
  cases hf : findFrom (fun j => !(lists j).isEmpty) bound k with
  | none =>
    rw [hf] at h
    cases h
  | some j =>
    rw [hf] at h
    dsimp only at h
    obtain ⟨h1, h2, h3, h4⟩ := findFrom_eq_some hf
    cases hl : lists j with
    | nil =>
      rw [hl] at h
      cases h
    | cons pt0 rest =>
      rw [hl] at h
      simp at h
      obtain ⟨rfl, rfl⟩ := h
      exact ⟨h1, h2, by rw [hl]; exact List.mem_cons_self pt0 rest⟩

/-- With a free run of length `≥ n` available, `PageTracker::Get` cannot
fail. -/
theorem get_ne_none {P n : Nat} {t : PageTracker} (hn : 0 < n)
    (hl : n ≤ t.longestFreeRange P) : t.get P n ≠ none := by
  have hne := findRun_isSome_of_longest (p := fun i => !t.used i) (P := P) hn hl
  unfold PageTracker.get
  cases hf : findRun (fun i => !t.used i) P n with
  | none => exact absurd hf hne
  | some index =>
    dsimp only
    by_cases hrc : 0 < t.releasedCount
    · rw [if_pos hrc]
      simp
    · rw [if_neg hrc]
      simp

/-- The binning invariant of the filler lists: every tracker filed in bin `i`
of a `ListFor`-indexed list has `longest_free_range ≥ i / chunks`, and every
tracker in `donated_alloc_` bin `i` has `longest_free_range ≥ i`
(`DonateToFillerList` files by `longest_free_range()` itself). -/
def BinnedInv (P : Nat) (f : Filler) : Prop :=
  (∀ d i pt, pt ∈ f.regular d i → i / f.chunks ≤ pt.longestFreeRange P) ∧
  (∀ i pt, pt ∈ f.donated i → i ≤ pt.longestFreeRange P) ∧
  (∀ d i pt, pt ∈ f.partReleased d i → i / f.chunks ≤ pt.longestFreeRange P) ∧
  (∀ d i pt, pt ∈ f.released d i → i / f.chunks ≤ pt.longestFreeRange P)

/-- Any tracker `tryGetSelect` chooses can satisfy the request. -/
theorem tryGetSelect_longest {P n : Nat} {f : Filler} {d : Density}
    {f1 : Filler} {pt : PageTracker} {w : Bool} (hch : 0 < f.chunks)
    (hinv : BinnedInv P f) (hsel : tryGetSelect P f n d = some (f1, pt, w)) :
    n ≤ pt.longestFreeRange P := by
  have hlist : listFor f.chunks n 0 = n * f.chunks := by
    unfold listFor
    omega
  unfold tryGetSelect at hsel
  cases h1 : getLeast (f.regular d) (P * f.chunks) (listFor f.chunks n 0) with
  | some ip =>
    obtain ⟨i, pt0⟩ := ip
    rw [h1] at hsel
    simp at hsel
    obtain ⟨-, rfl, -⟩ := hsel
    obtain ⟨hk, hb, hmem⟩ := getLeast_eq_some h1
    have hui := hinv.1 d i pt0 hmem
    have hnle : n ≤ i / f.chunks := (Nat.le_div_iff_mul_le hch).mpr (by omega)
    omega
  | none =>
    rw [h1] at hsel
    by_cases hd : d = Density.sparse
    · rw [if_pos hd] at hsel
      cases h2 : getLeast f.donated P n with
      | some ip =>
        obtain ⟨i, pt0⟩ := ip
        rw [h2] at hsel
        simp at hsel
        obtain ⟨-, rfl, -⟩ := hsel
        obtain ⟨hk, hb, hmem⟩ := getLeast_eq_some h2
        have := hinv.2.1 i pt0 hmem
        omega
      | none =>
        rw [h2] at hsel
        cases h3 : getLeast (f.partReleased d) (P * f.chunks) (listFor f.chunks n 0) with
        | some ip =>
          obtain ⟨i, pt0⟩ := ip
          rw [h3] at hsel
          simp at hsel
          obtain ⟨-, rfl, -⟩ := hsel
          obtain ⟨hk, hb, hmem⟩ := getLeast_eq_some h3
          have hui := hinv.2.2.1 d i pt0 hmem
          have hnle : n ≤ i / f.chunks := (Nat.le_div_iff_mul_le hch).mpr (by omega)
          omega
        | none =>
          rw [h3] at hsel
          cases h4 : getLeast (f.released d) (P * f.chunks) (listFor f.chunks n 0) with
          | some ip =>
            obtain ⟨i, pt0⟩ := ip
            rw [h4] at hsel
            simp at hsel
            obtain ⟨-, rfl, -⟩ := hsel
            obtain ⟨hk, hb, hmem⟩ := getLeast_eq_some h4
            have hui := hinv.2.2.2 d i pt0 hmem
            have hnle : n ≤ i / f.chunks := (Nat.le_div_iff_mul_le hch).mpr (by omega)
            omega
          | none =>
            rw [h4] at hsel
            cases hsel
    · rw [if_neg hd] at hsel
      cases h3 : getLeast (f.partReleased d) (P * f.chunks) (listFor f.chunks n 0) with
      | some ip =>
        obtain ⟨i, pt0⟩ := ip
        rw [h3] at hsel
        simp at hsel
        obtain ⟨-, rfl, -⟩ := hsel
        obtain ⟨hk, hb, hmem⟩ := getLeast_eq_some h3
        have hui := hinv.2.2.1 d i pt0 hmem
        have hnle : n ≤ i / f.chunks := (Nat.le_div_iff_mul_le hch).mpr (by omega)
        omega
      | none =>
        rw [h3] at hsel
        cases h4 : getLeast (f.released d) (P * f.chunks) (listFor f.chunks n 0) with
        | some ip =>
          obtain ⟨i, pt0⟩ := ip
          rw [h4] at hsel
          simp at hsel
          obtain ⟨-, rfl, -⟩ := hsel
          obtain ⟨hk, hb, hmem⟩ := getLeast_eq_some h4
          have hui := hinv.2.2.2 d i pt0 hmem
          have hnle : n ≤ i / f.chunks := (Nat.le_div_iff_mul_le hch).mpr (by omega)
          omega
        | none =>
          rw [h4] at hsel
          cases hsel

theorem Decision.ext {a b : Decision} (hp : a.pages = b.pages)
    (hc : a.count = b.count) : a = b := by
  obtain ⟨ap, ac⟩ := a
  obtain ⟨bp, bc⟩ := b
  simp only at hp hc
  rw [hp, hc]

theorem Decision.add_pages (a b : Decision) : (a + b).pages = a.pages + b.pages := rfl

theorem Decision.add_count (a b : Decision) : (a + b).count = a.count + b.count := rfl

theorem Decision.zero_pages : Decision.zero.pages = 0 := rfl

theorem Decision.zero_count : Decision.zero.count = 0 := rfl

/-- The total decisions of the entries the `ReportUpdatedPeak` fold considers
(nonzero count, peak not yet confirmed by an earlier epoch, still inside
their correctness interval), tracking the same largest-confirmed-peak
accumulator as the fold. -/
def rupHitSum : List SSEntry → Nat → Nat → Decision
  | [], _, _ => Decision.zero
  | e :: es, offset, largest =>
    if offset = 0 then rupHitSum es (offset + 1) largest
    else
      (if 0 < e.decisions.count ∧ largest < e.maxAtDecision ∧
          offset ≤ e.intervalEpochs then e.decisions else Decision.zero) +
        rupHitSum es (offset + 1) (max largest e.maxConfirmedPeak)

theorem rupFold_cons_ne {cp : Nat} {e : SSEntry} {es : List SSEntry}
    {off lg : Nat} {corr pend : Decision} (h0 : off ≠ 0) :
    rupFold cp (e :: es) off lg corr pend =
      rupFold cp es (off + 1) (max lg e.maxConfirmedPeak)
        (if (0 < e.decisions.count ∧ lg < e.maxAtDecision ∧
            off ≤ e.intervalEpochs) ∧ e.maxAtDecision ≤ cp
          then corr + e.decisions else corr)
        (if (0 < e.decisions.count ∧ lg < e.maxAtDecision ∧
            off ≤ e.intervalEpochs) ∧ ¬ e.maxAtDecision ≤ cp
          then pend + e.decisions else pend) := by
  rw [rupFold, if_neg h0]

/-- The confirmed accumulator of the `ReportUpdatedPeak` fold never
decreases. -/
theorem rupFold_correct_le {cp : Nat} :
    ∀ (es : List SSEntry) (off lg : Nat) (corr pend : Decision),
      corr.pages ≤ (rupFold cp es off lg corr pend).1.pages ∧
      corr.count ≤ (rupFold cp es off lg corr pend).1.count := by
  intro es
  induction es with
  | nil =>
    intro off lg corr pend
    simp [rupFold]
  | cons e es ih =>
    intro off lg corr pend
    by_cases h0 : off = 0
    · rw [rupFold, if_pos h0]
      exact ih (off + 1) lg corr pend
    · rw [rupFold_cons_ne h0]
      refine ⟨le_trans ?_ (ih _ _ _ _).1, le_trans ?_ (ih _ _ _ _).2⟩ <;>
        by_cases hC : (0 < e.decisions.count ∧ lg < e.maxAtDecision ∧
            off ≤ e.intervalEpochs) ∧ e.maxAtDecision ≤ cp
      · rw [if_pos hC, Decision.add_pages]
        omega
      · rw [if_neg hC]
      · rw [if_pos hC, Decision.add_count]
        omega
      · rw [if_neg hC]

/-- Every considered entry lands in exactly one of the two accumulators: the
fold conserves `confirmed + pending` up to the considered decisions. -/
theorem rupFold_sum {cp : Nat} :
    ∀ (es : List SSEntry) (off lg : Nat) (corr pend : Decision),
      (rupFold cp es off lg corr pend).1.pages +
          (rupFold cp es off lg corr pend).2.pages
        = corr.pages + pend.pages + (rupHitSum es off lg).pages ∧
      (rupFold cp es off lg corr pend).1.count +
          (rupFold cp es off lg corr pend).2.count
        = corr.count + pend.count + (rupHitSum es off lg).count := by
  intro es
  induction es with
  | nil =>
    intro off lg corr pend
    simp [rupFold, rupHitSum, Decision.zero_pages, Decision.zero_count]
  | cons e es ih =>
    intro off lg corr pend
    by_cases h0 : off = 0
    · rw [rupFold, if_pos h0, rupHitSum, if_pos h0]
      exact ih (off + 1) lg corr pend
    · rw [rupFold_cons_ne h0, rupHitSum, if_neg h0]
      obtain ⟨ihp, ihc⟩ := ih (off + 1) (max lg e.maxConfirmedPeak)
        (if (0 < e.decisions.count ∧ lg < e.maxAtDecision ∧
            off ≤ e.intervalEpochs) ∧ e.maxAtDecision ≤ cp
          then corr + e.decisions else corr)
        (if (0 < e.decisions.count ∧ lg < e.maxAtDecision ∧
            off ≤ e.intervalEpochs) ∧ ¬ e.maxAtDecision ≤ cp
          then pend + e.decisions else pend)
      rw [ihp, ihc]
      by_cases hH : 0 < e.decisions.count ∧ lg < e.maxAtDecision ∧
          off ≤ e.intervalEpochs
      · by_cases hD : e.maxAtDecision ≤ cp
        · rw [if_pos ⟨hH, hD⟩, if_neg (fun hc => hc.2 hD), if_pos hH]
          constructor
          · simp only [Decision.add_pages]
            omega
          · simp only [Decision.add_count]
            omega
        · rw [if_neg (fun hc => hD hc.2), if_pos ⟨hH, hD⟩, if_pos hH]
          constructor
          · simp only [Decision.add_pages]
            omega
          · simp only [Decision.add_count]
            omega
      · rw [if_neg (fun hc => hH hc.1), if_neg (fun hc => hH hc.1), if_neg hH]
        constructor
        · simp only [Decision.add_pages, Decision.zero_pages]
          omega
        · simp only [Decision.add_count, Decision.zero_count]
          omega

/-- One tracker operation never lowers the confirmed totals. -/
theorem applySSOp_correct_le (kE : Nat) (t : SSCT) (op : SSOp) :
    t.correct.pages ≤ (applySSOp kE t op).correct.pages ∧
    t.correct.count ≤ (applySSOp kE t op).correct.count := by
  cases op with
  | skipped adv sp pp ie =>
    simp [applySSOp, SSCT.reportSkippedSubreleasePages]
  | updatedPeak adv cp =>
    exact rupFold_correct_le _ _ _ _ _

/-- Monotonicity of the confirmed totals over an operation sequence. -/
theorem applySSOps_correct_le (kE : Nat) :
    ∀ (ops : List SSOp) (t : SSCT),
      t.correct.pages ≤ (applySSOps kE t ops).correct.pages ∧
      t.correct.count ≤ (applySSOps kE t ops).correct.count := by
  intro ops
  induction ops with
  | nil =>
    intro t
    simp [applySSOps]
  | cons op ops ih =>
    intro t
    have h1 := applySSOp_correct_le kE t op
    have h2 := ih (applySSOp kE t op)
    unfold applySSOps at h2 ⊢
    rw [List.foldl_cons]
    omega

/-- The flags `Release` selects are backed, fully-free huge pages. -/
theorem releaseFlagsLoop_backed {N toRelease : Nat} {r : HugeRegion} :
    ∀ (fuel i : Nat) (flags : Nat → Bool) (rel : Nat),
      (∀ j, flags j = true → r.backed j = true ∧ r.pagesUsed j = 0) →
      ∀ j, (releaseFlagsLoop N toRelease r fuel i flags rel).1 j = true →
        r.backed j = true ∧ r.pagesUsed j = 0 := by
  intro fuel
  induction fuel with
  | zero =>
    intro i flags rel hinv j hj
    exact hinv j hj
  | succ fuel ih =>
    intro i flags rel hinv j hj
    rw [releaseFlagsLoop] at hj
    by_cases hiN : i < N
    · rw [if_pos hiN] at hj
      dsimp only at hj
      cases hhit : r.backed i && decide (r.pagesUsed i = 0) with
      | true =>
        rw [hhit] at hj
        rw [if_pos rfl, if_pos rfl] at hj
        have hinv' : ∀ j, (fun j2 => if j2 = i then true else flags j2) j = true →
            r.backed j = true ∧ r.pagesUsed j = 0 := by
          intro j2 hj2
          simp only at hj2
          by_cases hji : j2 = i
          · subst hji
            have hb := (Bool.and_eq_true_iff.mp hhit).1
            have hp := (Bool.and_eq_true_iff.mp hhit).2
            exact ⟨hb, by simpa using hp⟩
          · rw [if_neg hji] at hj2
            exact hinv j2 hj2
        by_cases hstop : toRelease ≤ rel + 1
        · rw [if_pos hstop] at hj
          exact hinv' j hj
        · rw [if_neg hstop] at hj
          exact ih (i + 1) _ (rel + 1) hinv' j hj
      | false =>
        rw [hhit] at hj
        simp only [Bool.false_eq_true, if_false] at hj
        by_cases hstop : toRelease ≤ rel
        · rw [if_pos hstop] at hj
          exact hinv j hj
        · rw [if_neg hstop] at hj
          exact ih (i + 1) flags rel hinv j hj
    · rw [if_neg hiN] at hj
      exact hinv j hj

/-! ### Concrete sample states for evaluating the claim theorems -/

/-- An empty filler with one chunk per allocation. -/
def fillerW : Filler :=
  { chunks := 1, separate := false, regular := fun _ _ => [],
    donated := fun _ => [], partReleased := fun _ _ => [],
    released := fun _ _ => [], nUsedReleased := fun _ => 0,
    nUsedPartialReleased := fun _ => 0, nWasReleased := fun _ => 0,
    pagesAllocated := fun _ => 0, unmapped := 0, size := 0,
    unmappingUnaccounted := 0 }

/-- A four-page tracker: pages 0 and 3 used, page 1 subreleased. -/
def trackerW : PageTracker :=
  { used := fun i => decide (i = 0) || decide (i = 3), nallocs := 1,
    released := fun i => decide (i = 1), releasedCount := 1,
    donated := false, wasDonated := false, wasReleased := false,
    abandoned := false, abandonedCount := 0, unbroken := true,
    hasDenseSpans := false }

/-- A fully-free two-page tracker with nothing subreleased. -/
def trackerR : PageTracker :=
  { used := fun _ => false, nallocs := 0, released := fun _ => false,
    releasedCount := 0, donated := false, wasDonated := false,
    wasReleased := false, abandoned := false, abandonedCount := 0,
    unbroken := true, hasDenseSpans := false }

/-- An empty, unbacked region at page id 0. -/
def regionW : HugeRegion :=
  { used := fun _ => false, nallocs := 0, pagesUsed := fun _ => 0,
    backed := fun _ => false, nbacked := 0, totalUnbacked := 0, base := 0 }

/-- An empty region set. -/
def setW : HugeRegionSet :=
  { n := 0, useHugeRegionMoreOften := false, list := [] }

/-! ### The claim theorems -/

/-- Claim C4: for every tracker and injected unback function, `ReleaseFree`
walks exactly the maximal runs of currently backed (unreleased), currently
free pages, invokes `unback` on each, sets the released bits of exactly the
runs where `unback` returned true, and returns the total length of those
runs; a run whose `unback` failed contributes nothing to the count, the
released bits inside it are untouched, and the free bitmap is never
modified. -/
theorem releaseFree_walks_free_backed_runs (P : Nat) (unback : Nat → Nat → Bool)
    (t : PageTracker) :
    t.releaseFreeTrace P unback
        = (freeBackedRuns P t.used t.released).map (fun r => (r, unback r.1 r.2)) ∧
    (t.releaseFree P unback).1 = sumSucc unback (freeBackedRuns P t.used t.released) ∧
    ((t.releaseFree P unback).2).used = t.used ∧
    (∀ j, ((t.releaseFree P unback).2).released j
        = (t.released j || inSuccRun unback (freeBackedRuns P t.used t.released) j)) ∧
    ((t.releaseFree P unback).2).releasedCount
        = t.releasedCount + sumSucc unback (freeBackedRuns P t.used t.released) ∧
    (∀ r ∈ freeBackedRuns P t.used t.released, unback r.1 r.2 = false →
      ∀ j, r.1 ≤ j → j < r.1 + r.2 →
        ((t.releaseFree P unback).2).released j = t.released j) := by
  have hfb : freeBackedRuns P t.used t.released
      = runsFrom (fun i => !t.used i && !t.released i) P 0 := runsOf_eq_runsFrom
  have hspec := @releaseFreeLoop_spec P unback t.used
    P t.released 0 0 t.unbroken (by omega)
  have hrelj : ∀ j, ((t.releaseFree P unback).2).released j
      = (t.released j ||
        inSuccRun unback (runsFrom (fun i => !t.used i && !t.released i) P 0) j) := by
    intro j
    show (releaseFreeLoop P unback t.used P t.released 0 0 t.unbroken).2.2.1 j = _
    rw [hspec]
  refine ⟨?_, ?_, rfl, ?_, ?_, ?_⟩
  · show (releaseFreeLoop P unback t.used P t.released 0 0 t.unbroken).1 = _
    rw [hspec, hfb]
  · show (releaseFreeLoop P unback t.used P t.released 0 0 t.unbroken).2.1 = _
    rw [hspec, hfb]
    dsimp only
    exact Nat.zero_add _
  · intro j
    rw [hrelj j, hfb]
  · show t.releasedCount + (releaseFreeLoop P unback t.used P t.released 0 0 t.unbroken).2.1
        = _
    rw [hspec, hfb]
    dsimp only
    omega
  · intro r hr hf j hj1 hj2
    rw [hfb] at hr
    have hno := inSuccRun_false_of_failed hr hf hj1 hj2
    rw [hrelj j, hno]
    simp

/-- Claim C9 counterexample: on a fully-free two-page tracker the first
`ReleaseFree` with an always-succeeding unback returns 2, the second returns
0 — the two calls do not return equal values. -/
theorem releaseFree_twice_not_equal :
    (trackerR.releaseFree 2 (fun _ _ => true)).1 = 2 ∧
    (((trackerR.releaseFree 2 (fun _ _ => true)).2).releaseFree 2
      (fun _ _ => true)).1 = 0 ∧
    (2 : Nat) ≠ 0 := by
  refine ⟨?_, ?_, by decide⟩
  · decide
  · decide

/-- Claim C9 (corrected): the first `ReleaseFree(unback_noop)` releases every
free backed run, so it can return a nonzero count the claim would require the
second call to repeat; what holds is the second half of the claim,
unconditionally: with the free set unchanged, the second call finds every
free page already released and returns 0. -/
theorem releaseFree_second_returns_zero (P : Nat) (t : PageTracker) :
    (((t.releaseFree P (fun _ _ => true)).2).releaseFree P (fun _ _ => true)).1 = 0 := by
  have hspec := @releaseFreeLoop_spec P (fun _ _ => true)
    t.used P t.released 0 0 t.unbroken (by omega)
  have hrelj : ∀ j, ((t.releaseFree P (fun _ _ => true)).2).released j
      = (t.released j || inSuccRun (fun _ _ => true)
          (runsFrom (fun i => !t.used i && !t.released i) P 0) j) := by
    intro j
    show (releaseFreeLoop P (fun _ _ => true) t.used P t.released 0 0 t.unbroken).2.2.1 j
        = _
    rw [hspec]
  have hpred : ∀ k, 0 ≤ k → k < P →
      (!t.used k && !((t.releaseFree P (fun _ _ => true)).2).released k) = false := by
    intro k _ hk
    cases hu : t.used k with
    | true => simp [hu]
    | false =>
      cases hr : t.released k with
      | true => simp [hrelj k, hr]
      | false =>
        obtain ⟨r, hrmem, hc1, hc2⟩ := runsFrom_covers
          (p := fun i => !t.used i && !t.released i) (i := 0)
          (Nat.zero_le k) hk (by simp [hu, hr])
        have hins : inSuccRun (fun _ _ => true)
            (runsFrom (fun i => !t.used i && !t.released i) P 0) k = true := by
          unfold inSuccRun
          rw [List.any_eq_true]
          exact ⟨r, hrmem, by simp [hc1, hc2]⟩
        simp [hrelj k, hins]
  have hR : runsFrom
      (fun i => !t.used i && !((t.releaseFree P (fun _ _ => true)).2).released i) P 0
        = [] := by
    rw [runsFrom_eq, nextRange_none_intro hpred]
  have hspec2 := @releaseFreeLoop_spec P (fun _ _ => true)
    (((t.releaseFree P (fun _ _ => true)).2).used)
    P ((t.releaseFree P (fun _ _ => true)).2).released 0 0
    ((t.releaseFree P (fun _ _ => true)).2).unbroken (by omega)
  show (releaseFreeLoop P (fun _ _ => true)
      ((t.releaseFree P (fun _ _ => true)).2).used P
      ((t.releaseFree P (fun _ _ => true)).2).released 0 0
      ((t.releaseFree P (fun _ _ => true)).2).unbroken).2.1 = 0
  rw [hspec2]
  dsimp only
  have hused : ((t.releaseFree P (fun _ _ => true)).2).used = t.used := rfl
  rw [hused, hR]
  simp [sumSucc]

/-- Claim C10: `Contribute` aborts with the `released_pages() == 0` assertion
exactly when the contributed tracker has subreleased pages, whether donated
or not; under the caller precondition `released_pages() = 0` that branch is
unreachable. -/
theorem contribute_requires_no_released (P : Nat) (f : Filler) (pt : PageTracker)
    (don dense : Bool) :
    (Filler.contribute P f pt don dense
        = Except.error ContributeError.releasedNonZero ↔ pt.releasedPages ≠ 0) ∧
    (pt.releasedPages = 0 →
      Filler.contribute P f pt don dense
        ≠ Except.error ContributeError.releasedNonZero) := by
  unfold Filler.contribute
  by_cases h : pt.releasedPages ≠ 0
  · rw [if_pos h]
    exact ⟨⟨fun _ => h, fun _ => rfl⟩, fun h0 => absurd h0 h⟩
  · rw [if_neg h]
    push_neg at h
    dsimp only
    constructor
    · constructor
      · intro hc
        exfalso
        split_ifs at hc <;> simp_all
      · intro hne
        exact absurd h hne
    · intro _ hc
      split_ifs at hc <;> simp_all

/-- Claim C2: with a free run of length `n` available, `Get(n)` returns the
leftmost placement of `n` free pages (every smaller start has a used page in
its window), marks exactly those pages used, reports `previously_unbacked`
equal to the number of released bits in the window, clears exactly those
bits and decrements `released_count_` by that number.  The hypothesis ties
`released_count_` to the modelled `released_by_page_` bitmap, the
`RangeTracker` bookkeeping invariant. -/
theorem get_marks_leftmost_run (P n : Nat) (t : PageTracker) (hn : 0 < n)
    (hl : n ≤ t.longestFreeRange P)
    (hcnt : countTrue t.released 0 P = t.releasedCount) :
    ∃ index t', t.get P n = some ((index, countTrue t.released index n), t') ∧
      index + n ≤ P ∧
      (∀ k, k < n → t.used (index + k) = false) ∧
      (∀ i', i' + n ≤ P → i' < index → ∃ k, k < n ∧ t.used (i' + k) = true) ∧
      t'.used = setRange t.used index n ∧
      t'.nallocs = t.nallocs + 1 ∧
      (∀ j, t'.released j = clearRange t.released index n j) ∧
      t'.releasedCount = t.releasedCount - countTrue t.released index n := by
  have hne := findRun_isSome_of_longest (p := fun i => !t.used i) (P := P) hn hl
  cases hf : findRun (fun i => !t.used i) P n with
  | none => exact absurd hf hne
  | some index =>
    obtain ⟨hjn, hfree, hleft⟩ := findRun_some hn hf
    have hfree' : ∀ k, k < n → t.used (index + k) = false := by
      intro k hk
      have := hfree k hk
      simpa using this
    have hleft' : ∀ i', i' + n ≤ P → i' < index →
        ∃ k, k < n ∧ t.used (i' + k) = true := by
      intro i' h1 h2
      obtain ⟨k, hk, hp⟩ := hleft i' h1 h2
      exact ⟨k, hk, by simpa using hp⟩
    by_cases hrc : 0 < t.releasedCount
    · refine ⟨index, { t with used := setRange t.used index n, nallocs := t.nallocs + 1, released := clearRange t.released index n, releasedCount := t.releasedCount - countTrue t.released index n }, ?_, hjn, hfree', hleft', rfl, rfl, fun j => rfl, rfl⟩
      unfold PageTracker.get
      rw [hf]
      dsimp only
      rw [if_pos hrc]
    · have hrc0 : t.releasedCount = 0 := by omega
      have hall : ∀ k, k < P → t.released k = false := by
        have h0 := countTrue_eq_zero.mp (by rw [hcnt, hrc0])
        intro k hk
        have := h0 k hk
        rwa [Nat.zero_add] at this
      have hciz : countTrue t.released index n = 0 :=
        countTrue_eq_zero.mpr fun k hk => hall (index + k) (by omega)
      refine ⟨index, { t with used := setRange t.used index n, nallocs := t.nallocs + 1 }, ?_, hjn, hfree', hleft', rfl, rfl, ?_, ?_⟩
      · unfold PageTracker.get
        rw [hf]
        dsimp only
        rw [if_neg hrc, hciz]
      · intro j
        show t.released j = clearRange t.released index n j
        unfold clearRange
        by_cases hin : index ≤ j ∧ j < index + n
        · rw [if_pos hin]
          exact hall j (by omega)
        · rw [if_neg hin]
      · show t.releasedCount = t.releasedCount - countTrue t.released index n
        rw [hciz]
        omega

/-- Witness for claim C2 on the concrete four-page tracker. -/
theorem get_marks_leftmost_run_witness :
    0 < 2 ∧ 2 ≤ trackerW.longestFreeRange 4 ∧
    countTrue trackerW.released 0 4 = trackerW.releasedCount ∧
    trackerW.get 4 2 ≠ none := by
  refine ⟨by decide, by decide, by decide, ?_⟩
  obtain ⟨index, t', hg, hrest⟩ :=
    get_marks_leftmost_run 4 2 trackerW (by decide) (by decide) (by decide)
  rw [hg]
  simp

/-- Claim C5: `MaybeGet(n)` fails exactly when `n` exceeds the region's
longest free run; on success it marks the run `FindAndMark` chose, adds the
covered sub-length to each touched huge page's `pages_used_`, newly backs —
flag set and `nbacked_` incremented — exactly the covered huge pages that had
no used pages and no backing, and reports `from_released` exactly when some
covered huge page was newly backed. -/
theorem maybeGet_marks_and_backs (P N n : Nat) (r : HugeRegion)
    (hP : 0 < P) (hn : 0 < n) :
    (r.maybeGet P N n = none ↔ r.longestFree P N < n) ∧
    (∀ page fr r', r.maybeGet P N n = some ((page, fr), r') →
      ∃ index, findRun (fun i => !r.used i) (N * P) n = some index ∧
        page = r.base + index ∧
        r'.used = setRange r.used index n ∧
        r'.nallocs = r.nallocs + 1 ∧
        (∀ k, r'.pagesUsed k = r.pagesUsed k + overlap P index n k) ∧
        (∀ k, r'.backed k = (r.backed k ||
          newlyBacked P index n ⟨r.pagesUsed, r.backed, r.nbacked, false⟩ k)) ∧
        r'.nbacked = r.nbacked + countTrue
          (newlyBacked P index n ⟨r.pagesUsed, r.backed, r.nbacked, false⟩) 0
          (index + n) ∧
        (fr = true ↔ ∃ k, newlyBacked P index n
          ⟨r.pagesUsed, r.backed, r.nbacked, false⟩ k = true)) := by
  constructor
  · by_cases hg : r.longestFree P N < n
    · unfold HugeRegion.maybeGet
      rw [if_pos hg]
      simp [hg]
    · unfold HugeRegion.maybeGet
      rw [if_neg hg]
      have hne := findRun_isSome_of_longest (p := fun i => !r.used i) (P := N * P) hn
        (by
          unfold HugeRegion.longestFree at hg
          omega)
      cases hf : findRun (fun i => !r.used i) (N * P) n with
      | none => exact absurd hf hne
      | some index =>
        dsimp only
        simp [hg]
  · intro page fr r' hm
    unfold HugeRegion.maybeGet at hm
    by_cases hg : r.longestFree P N < n
    · rw [if_pos hg] at hm
      cases hm
    · rw [if_neg hg] at hm
      cases hf : findRun (fun i => !r.used i) (N * P) n with
      | none =>
        rw [hf] at hm
        cases hm
      | some index =>
        rw [hf] at hm
        dsimp only at hm
        rw [Option.some.injEq, Prod.mk.injEq, Prod.mk.injEq] at hm
        obtain ⟨⟨hpage, hfr⟩, hrec⟩ := hm
        subst hrec
        obtain ⟨i1, i2, i3, i4⟩ := incLoop_spec hP n index n
          ⟨r.pagesUsed, r.backed, r.nbacked, false⟩ (le_refl n)
        have hbk : ∀ k, newlyBacked P index n
            ⟨r.pagesUsed, r.backed, r.nbacked, false⟩ k = true → k < index + n := by
          intro k hk
          unfold newlyBacked at hk
          have hov : 0 < overlap P index n k := by
            by_contra hc
            have hd : decide (0 < overlap P index n k) = false := by
              simp
              omega
            rw [hd] at hk
            simp at hk
          unfold overlap at hov
          have hkP : k ≤ k * P := Nat.le_mul_of_pos_right k hP
          omega
        refine ⟨index, rfl, hpage.symm, rfl, rfl, fun k => i1 k, fun k => i2 k, i3, ?_⟩
        constructor
        · intro hfr'
          rw [← hfr, i4] at hfr'
          simp only [Bool.false_or, decide_eq_true_eq] at hfr'
          obtain ⟨k, hk, hpk⟩ := countTrue_pos_iff.mp hfr'
          exact ⟨k, hpk⟩
        · intro ⟨k, hpk⟩
          rw [← hfr, i4]
          have hpos : 0 < countTrue (newlyBacked P index n
              ⟨r.pagesUsed, r.backed, r.nbacked, false⟩) 0 (index + n) :=
            countTrue_pos_iff.mpr ⟨k, hbk k hpk, hpk⟩
          simp [hpos]

/-- Witness for claim C5 on the concrete empty region. -/
theorem maybeGet_marks_and_backs_witness :
    0 < 2 ∧ 0 < 1 ∧ (regionW.maybeGet 2 2 1 = none ↔ regionW.longestFree 2 2 < 1) :=
  ⟨by decide, by decide, (maybeGet_marks_and_backs 2 2 1 regionW (by decide) (by decide)).1⟩

/-- Claim C6: during `Release(fraction)` and during `Put` with release, the
huge pages flagged for unbacking are backed and fully free, and a contiguous
flagged group whose `Unback` fails keeps its `backed_` flags; globally
`nbacked_` drops and `total_unbacked_` grows by exactly the lengths of the
groups whose `Unback` succeeded, so a failed group causes no accounting
change. -/
theorem release_unback_failure_no_change (P N : Nat) (unback : Nat → Nat → Bool)
    (fraction : ℚ) (r : HugeRegion) (p n : Nat) :
    (∀ k, r.releaseFlags N fraction k = true →
      r.backed k = true ∧ r.pagesUsed k = 0) ∧
    (∀ g ∈ runsOf (r.releaseFlags N fraction) N, unback g.1 g.2 = false →
      ∀ k, g.1 ≤ k → k < g.1 + g.2 →
        ((r.release P N unback fraction).2).backed k = r.backed k) ∧
    ((r.release P N unback fraction).2).nbacked
        = r.nbacked - sumSucc unback (runsOf (r.releaseFlags N fraction) N) ∧
    ((r.release P N unback fraction).2).totalUnbacked
        = r.totalUnbacked + sumSucc unback (runsOf (r.releaseFlags N fraction) N) ∧
    (∀ g ∈ runsOf (r.putFlags P p n) N, unback g.1 g.2 = false →
      ∀ k, g.1 ≤ k → k < g.1 + g.2 →
        (r.put P N unback p n true).backed k = r.backed k) ∧
    (r.put P N unback p n true).nbacked
        = r.nbacked - sumSucc unback (runsOf (r.putFlags P p n) N) ∧
    (r.put P N unback p n true).totalUnbacked
        = r.totalUnbacked + sumSucc unback (runsOf (r.putFlags P p n) N) := by
  have hre : (r.release P N unback fraction).2
      = unbackLoop N unback (r.releaseFlags N fraction) N 0 r := rfl
  obtain ⟨e1, e2, e3, e4, e5, e6, e7⟩ := @unbackLoop_spec N unback
    (r.releaseFlags N fraction) N 0 r (by omega)
  have hpu : r.put P N unback p n true = unbackLoop N unback (r.putFlags P p n) N 0 { r with used := clearRange r.used (p - r.base) n, nallocs := r.nallocs - 1, pagesUsed := (decLoop P n (p - r.base) n r.pagesUsed (fun _ => false)).1 } := rfl
  obtain ⟨f1, f2, f3, f4, f5, f6, f7⟩ := @unbackLoop_spec N unback
    (r.putFlags P p n) N 0
    { r with used := clearRange r.used (p - r.base) n, nallocs := r.nallocs - 1, pagesUsed := (decLoop P n (p - r.base) n r.pagesUsed (fun _ => false)).1 }
    (by omega)
  refine ⟨?_, ?_, ?_, ?_, ?_, ?_, ?_⟩
  · intro k hk
    exact releaseFlagsLoop_backed N 0 (fun _ => false) 0 (fun j hj => nomatch hj) k hk
  · intro g hg hf k h1 h2
    rw [runsOf_eq_runsFrom] at hg
    have hno := inSuccRun_false_of_failed hg hf h1 h2
    rw [hre, e5 k, hno]
    simp
  · rw [hre, e6, runsOf_eq_runsFrom]
  · rw [hre, e7, runsOf_eq_runsFrom]
  · intro g hg hf k h1 h2
    rw [runsOf_eq_runsFrom] at hg
    have hno := inSuccRun_false_of_failed hg hf h1 h2
    rw [hpu, f5 k, hno]
    simp
  · rw [hpu, f6, runsOf_eq_runsFrom]
  · rw [hpu, f7, runsOf_eq_runsFrom]

/-- Claim C7: each of the four `HugeRegionSet` operations preserves the
ascending `longest_free` order of the region list. -/
theorem regionSet_sorted_after_ops (P N n p m : Nat) (unback : Nat → Nat → Bool)
    (fraction : ℚ) (s : HugeRegionSet) (r : HugeRegion)
    (hs : keySorted (fun x => x.longestFree P N) s.list) :
    (∀ ans s', s.maybeGet P N n = some (ans, s') →
      keySorted (fun x => x.longestFree P N) s'.list) ∧
    keySorted (fun x => x.longestFree P N) ((s.maybePut P N unback p m).2).list ∧
    keySorted (fun x => x.longestFree P N) ((s.contribute P N r).list) ∧
    keySorted (fun x => x.longestFree P N)
      (((s.releasePages P N unback fraction).2).list) := by
  refine ⟨?_, ?_, ?_, ?_⟩
  · intro ans s' hm
    unfold HugeRegionSet.maybeGet at hm
    cases hgo : setMaybeGetGo P N n s.list with
    | none =>
      rw [hgo] at hm
      cases hm
    | some res =>
      obtain ⟨ans1, b, r', a⟩ := res
      rw [hgo] at hm
      dsimp only at hm
      rw [Option.some.injEq, Prod.mk.injEq] at hm
      obtain ⟨rfl, hs'⟩ := hm
      obtain ⟨r0, hsplit⟩ := setMaybeGetGo_decomp hgo
      rw [hsplit] at hs
      obtain ⟨hb, ha, hcross⟩ := pairwiseSplit hs
      rw [← hs']
      exact fixList_sorted hb ha hcross
  · unfold HugeRegionSet.maybePut
    dsimp only
    cases hgo : setMaybePutGo P N unback p m (!s.useHugeRegionMoreOften) s.list with
    | none => exact hs
    | some res =>
      obtain ⟨b, r', a⟩ := res
      dsimp only
      obtain ⟨r0, hsplit⟩ := setMaybePutGo_decomp hgo
      rw [hsplit] at hs
      obtain ⟨hb, ha, hcross⟩ := pairwiseSplit hs
      exact fixList_sorted hb ha hcross
  · exact addToList_sorted hs
  · unfold HugeRegionSet.releasePages
    dsimp only
    rw [List.map_map]
    have hs2 : s.list.Pairwise fun a b => a.longestFree P N ≤ b.longestFree P N := hs
    show List.Pairwise _ _
    rw [List.pairwise_map]
    refine List.Pairwise.imp ?_ hs2
    intro a b hab
    simp only [Function.comp]
    show ((HugeRegion.release P N unback fraction a).2).longestFree P N
        ≤ ((HugeRegion.release P N unback fraction b).2).longestFree P N
    rw [release_preserves_key, release_preserves_key]
    exact hab

/-- Witness for claim C7: contributing a region to the empty sorted set. -/
theorem regionSet_sorted_after_ops_witness :
    keySorted (fun x => x.longestFree 2 2) setW.list ∧
    keySorted (fun x => x.longestFree 2 2) ((setW.contribute 2 2 regionW).list) :=
  ⟨List.Pairwise.nil,
    (regionSet_sorted_after_ops 2 2 1 0 1 (fun _ _ => true) 1 setW regionW
      List.Pairwise.nil).2.2.1⟩

/-- Claim C8: over any operation sequence the `correctly_skipped()` totals
never decrease — a confirmed decision cannot revert; a skip report leaves
them untouched, and each `ReportUpdatedPeak` splits exactly the considered
entries' decisions between `correctly_skipped` (grown, never shrunk) and the
recomputed `pending_skipped`. -/
theorem correctly_skipped_monotone (kE : Nat) (t : SSCT) (ops : List SSOp)
    (adv cp sp pp ie : Nat) :
    (t.correct.pages ≤ (applySSOps kE t ops).correct.pages ∧
     t.correct.count ≤ (applySSOps kE t ops).correct.count) ∧
    (t.reportSkippedSubreleasePages kE adv sp pp ie).correct = t.correct ∧
    ((t.reportUpdatedPeak kE adv cp).correct.pages +
        (t.reportUpdatedPeak kE adv cp).pending.pages
      = t.correct.pages + (rupHitSum
          (tsReport kE adv ⟨Decision.zero, 0, 0, cp⟩ t.entries).2 0
          (if (tsReport kE adv ⟨Decision.zero, 0, 0, cp⟩ t.entries).1 = true then 0
            else t.lastConfirmedPeak)).pages) ∧
    ((t.reportUpdatedPeak kE adv cp).correct.count +
        (t.reportUpdatedPeak kE adv cp).pending.count
      = t.correct.count + (rupHitSum
          (tsReport kE adv ⟨Decision.zero, 0, 0, cp⟩ t.entries).2 0
          (if (tsReport kE adv ⟨Decision.zero, 0, 0, cp⟩ t.entries).1 = true then 0
            else t.lastConfirmedPeak)).count) := by
  have hc : (t.reportUpdatedPeak kE adv cp).correct
      = (rupFold cp (tsReport kE adv ⟨Decision.zero, 0, 0, cp⟩ t.entries).2 0
          (if (tsReport kE adv ⟨Decision.zero, 0, 0, cp⟩ t.entries).1 = true then 0
            else t.lastConfirmedPeak) t.correct Decision.zero).1 := rfl
  have hp : (t.reportUpdatedPeak kE adv cp).pending
      = (rupFold cp (tsReport kE adv ⟨Decision.zero, 0, 0, cp⟩ t.entries).2 0
          (if (tsReport kE adv ⟨Decision.zero, 0, 0, cp⟩ t.entries).1 = true then 0
            else t.lastConfirmedPeak) t.correct Decision.zero).2 := rfl
  obtain ⟨hsp, hsc⟩ := @rupFold_sum cp
    (tsReport kE adv ⟨Decision.zero, 0, 0, cp⟩ t.entries).2 0
    (if (tsReport kE adv ⟨Decision.zero, 0, 0, cp⟩ t.entries).1 = true then 0
      else t.lastConfirmedPeak) t.correct Decision.zero
  refine ⟨applySSOps_correct_le kE ops t, rfl, ?_, ?_⟩
  · rw [hc, hp, hsp, Decision.zero_pages]
    omega
  · rw [hc, hp, hsc, Decision.zero_count]
    omega

/-- Claim C3 (corrected): with skip-subrelease enabled and the demand
requirement nonzero, the claimed formulas hold — `new_desired` is `released`
when `required ≥ current`, else `released + (current − required)`, the return
value never exceeds the incoming `desired`, and when the result shrinks the
target the tracker receives `skipped = min(free − releasable, desired −
new_desired)` and `peak = min(current, required)` (a zero `skipped` report is
dropped by the stats tracker); the claim omits that a requirement of zero
returns `desired` unchanged and records nothing. -/
theorem getDesired_requirement_formulas (epochLen kE : Nat)
    (entries : List FillerStatsEpoch) (used free desired released : Nat)
    (iv : SkipSubreleaseIntervals) (hen : iv.skipSubreleaseEnabled = true)
    (hlt : released < desired) :
    (requiredPages epochLen kE entries used iv = 0 →
      getDesiredSubreleasePages epochLen kE entries used free desired released iv
        = (desired, none)) ∧
    (∀ req, req = requiredPages epochLen kE entries used iv → req ≠ 0 →
      ∀ nd, nd = (if used + free ≤ req then released
          else released + (used + free - req)) →
        (getDesiredSubreleasePages epochLen kE entries used free desired released
            iv).1 = min desired nd ∧
        (desired ≤ nd →
          (getDesiredSubreleasePages epochLen kE entries used free desired released
            iv).2 = none) ∧
        (nd < desired →
          (getDesiredSubreleasePages epochLen kE entries used free desired released
              iv).2
            = (if min (free - min free (nd - released)) (desired - nd) = 0 then none
               else some (min (free - min free (nd - released)) (desired - nd),
                 min (used + free) req)))) := by
  unfold getDesiredSubreleasePages
  rw [hen]
  rw [if_neg (by simp)]
  dsimp only
  constructor
  · intro h0
    rw [if_neg (fun hne => hne h0)]
  · intro req hreq hne nd hnd
    subst hreq
    rw [if_pos hne]
    rw [← hnd]
    refine ⟨?_, ?_, ?_⟩
    · by_cases hcl : desired ≤ nd
      · rw [if_pos hcl]
        dsimp only
        omega
      · rw [if_neg hcl]
        dsimp only
        omega
    · intro hcl
      rw [if_pos hcl]
    · intro hcl
      rw [if_neg (by omega)]

/-- Witness for claim C3: an enabled peak interval over an empty demand
history gives requirement zero and the code keeps `desired`. -/
theorem getDesired_requirement_formulas_witness :
    (⟨1, 0, 0⟩ : SkipSubreleaseIntervals).skipSubreleaseEnabled = true ∧
    (0 : Nat) < 10 ∧
    (requiredPages 1 1 [⟨true, 0, 0⟩] 0 ⟨1, 0, 0⟩ = 0 →
      getDesiredSubreleasePages 1 1 [⟨true, 0, 0⟩] 0 1 10 0 ⟨1, 0, 0⟩
        = (10, none)) :=
  ⟨by decide, by decide,
    (getDesired_requirement_formulas 1 1 [⟨true, 0, 0⟩] 0 1 10 0 ⟨1, 0, 0⟩
      (by decide) (by decide)).1⟩

/-- Claim C3 counterexample: skip-subrelease enabled, `used = 0`, `free = 1`,
`desired = 10`, `released = 0` and an empty demand history give requirement
0; the code returns `desired = 10`, while the claim's unconditional formula
`released + (current − required)` clamped to `desired` gives 1. -/
theorem getDesired_zero_requirement_counterexample :
    (⟨1, 0, 0⟩ : SkipSubreleaseIntervals).skipSubreleaseEnabled = true ∧
    (0 : Nat) < 10 ∧
    requiredPages 1 1 [⟨true, 0, 0⟩] 0 ⟨1, 0, 0⟩ = 0 ∧
    getDesiredSubreleasePages 1 1 [⟨true, 0, 0⟩] 0 1 10 0 ⟨1, 0, 0⟩ = (10, none) ∧
    min 10 (0 + (0 + 1 - requiredPages 1 1 [⟨true, 0, 0⟩] 0 ⟨1, 0, 0⟩)) = 1 ∧
    (10 : Nat) ≠ 1 := by
  refine ⟨by decide, by decide, by decide, by decide, by decide, by decide⟩

/-- Claim C1: `TryGet(n)` computes density Dense only under separate allocs
with a dense span; it searches, in order, `regular_alloc_[d]`, then — sparse
only — `donated_alloc_` at `n`, then `regular_alloc_partial_released_[d]`,
then `regular_alloc_released_[d]`, each from the first non-empty bin
`≥ ListFor(n, 0)`; the result is null exactly when every search fails, and
`from_released` holds exactly when a partial-released or released list
supplied the tracker.  The hypothesis is the filler binning invariant (a
tracker in bin `i` has `longest_free_range ≥ i / chunks`, respectively `≥ i`
for donated), under which a selected tracker's `Get(n)` cannot fail. -/
theorem tryGet_search_order (P n : Nat) (f : Filler) (dense : Bool)
    (hn : 0 < n) (hch : 0 < f.chunks) (hinv : BinnedInv P f) :
    (densityFor f.separate dense = Density.dense ↔
      f.separate = true ∧ dense = true) ∧
    ((Filler.tryGet P f n dense).1 = none ↔
      tryGetSelect P f n (densityFor f.separate dense) = none) ∧
    (tryGetSelect P f n (densityFor f.separate dense) = none ↔
      (getLeast (f.regular (densityFor f.separate dense)) (P * f.chunks)
          (listFor f.chunks n 0) = none ∧
        (densityFor f.separate dense = Density.sparse →
          getLeast f.donated P n = none) ∧
        getLeast (f.partReleased (densityFor f.separate dense)) (P * f.chunks)
          (listFor f.chunks n 0) = none ∧
        getLeast (f.released (densityFor f.separate dense)) (P * f.chunks)
          (listFor f.chunks n 0) = none)) ∧
    (∀ f1 pt w, tryGetSelect P f n (densityFor f.separate dense)
        = some (f1, pt, w) →
      ((∃ i, getLeast (f.regular (densityFor f.separate dense)) (P * f.chunks)
          (listFor f.chunks n 0) = some (i, pt)) ∧ w = false) ∨
      (getLeast (f.regular (densityFor f.separate dense)) (P * f.chunks)
          (listFor f.chunks n 0) = none ∧
        densityFor f.separate dense = Density.sparse ∧
        (∃ i, getLeast f.donated P n = some (i, pt)) ∧ w = false) ∨
      (getLeast (f.regular (densityFor f.separate dense)) (P * f.chunks)
          (listFor f.chunks n 0) = none ∧
        (densityFor f.separate dense = Density.sparse →
          getLeast f.donated P n = none) ∧
        (∃ i, getLeast (f.partReleased (densityFor f.separate dense))
          (P * f.chunks) (listFor f.chunks n 0) = some (i, pt)) ∧ w = true) ∨
      (getLeast (f.regular (densityFor f.separate dense)) (P * f.chunks)
          (listFor f.chunks n 0) = none ∧
        (densityFor f.separate dense = Density.sparse →
          getLeast f.donated P n = none) ∧
        getLeast (f.partReleased (densityFor f.separate dense)) (P * f.chunks)
          (listFor f.chunks n 0) = none ∧
        (∃ i, getLeast (f.released (densityFor f.separate dense)) (P * f.chunks)
          (listFor f.chunks n 0) = some (i, pt)) ∧ w = true)) := by
  refine ⟨?_, ?_, ?_, ?_⟩
  · cases hsep : f.separate <;> cases hde : dense <;> simp [densityFor]
  · cases hsel : tryGetSelect P f n (densityFor f.separate dense) with
    | none =>
      unfold Filler.tryGet
      dsimp only
      rw [hsel]
      simp
    | some res =>
      obtain ⟨f1, pt, w⟩ := res
      have hlg := tryGetSelect_longest hch hinv hsel
      have hgn := get_ne_none hn hlg
      unfold Filler.tryGet
      dsimp only
      rw [hsel]
      cases hget : pt.get P n with
      | none => exact absurd hget hgn
      | some resg =>
        obtain ⟨⟨page, unb⟩, pt'⟩ := resg
        dsimp only
        rw [hget]
        dsimp only
        simp
  · unfold tryGetSelect
    cases h1 : getLeast (f.regular (densityFor f.separate dense)) (P * f.chunks)
        (listFor f.chunks n 0) with
    | some ip =>
      obtain ⟨i, pt0⟩ := ip
      dsimp only
      simp
    | none =>
      dsimp only
      by_cases hd2 : densityFor f.separate dense = Density.sparse
      · rw [if_pos hd2]
        cases h2 : getLeast f.donated P n with
        | some ip =>
          obtain ⟨i, pt0⟩ := ip
          dsimp only
          simp [hd2, h2]
        | none =>
          dsimp only
          cases h3 : getLeast (f.partReleased (densityFor f.separate dense))
              (P * f.chunks) (listFor f.chunks n 0) with
          | some ip =>
            obtain ⟨i, pt0⟩ := ip
            dsimp only
            simp
          | none =>
            dsimp only
            cases h4 : getLeast (f.released (densityFor f.separate dense))
                (P * f.chunks) (listFor f.chunks n 0) with
            | some ip =>
              obtain ⟨i, pt0⟩ := ip
              dsimp only
              simp
            | none =>
              dsimp only
              simp [h2]
      · rw [if_neg hd2]
        dsimp only
        cases h3 : getLeast (f.partReleased (densityFor f.separate dense))
            (P * f.chunks) (listFor f.chunks n 0) with
        | some ip =>
          obtain ⟨i, pt0⟩ := ip
          dsimp only
          simp
        | none =>
          dsimp only
          cases h4 : getLeast (f.released (densityFor f.separate dense))
              (P * f.chunks) (listFor f.chunks n 0) with
          | some ip =>
            obtain ⟨i, pt0⟩ := ip
            dsimp only
            simp
          | none =>
            dsimp only
            simp [hd2]
  · intro f1 pt w hsel
    unfold tryGetSelect at hsel
    cases h1 : getLeast (f.regular (densityFor f.separate dense)) (P * f.chunks)
        (listFor f.chunks n 0) with
    | some ip =>
      obtain ⟨i, pt0⟩ := ip
      rw [h1] at hsel
      dsimp only at hsel
      rw [Option.some.injEq, Prod.mk.injEq, Prod.mk.injEq] at hsel
      obtain ⟨hfe, hpe, hwe⟩ := hsel
      exact Or.inl ⟨⟨i, by rw [hpe]⟩, hwe.symm⟩
    | none =>
      rw [h1] at hsel
      by_cases hd2 : densityFor f.separate dense = Density.sparse
      · rw [if_pos hd2] at hsel
        cases h2 : getLeast f.donated P n with
        | some ip =>
          obtain ⟨i, pt0⟩ := ip
          rw [h2] at hsel
          dsimp only at hsel
          rw [Option.some.injEq, Prod.mk.injEq, Prod.mk.injEq] at hsel
          obtain ⟨hfe, hpe, hwe⟩ := hsel
          exact Or.inr (Or.inl ⟨rfl, hd2, ⟨i, by rw [hpe]⟩, hwe.symm⟩)
        | none =>
          rw [h2] at hsel
          dsimp only at hsel
          cases h3 : getLeast (f.partReleased (densityFor f.separate dense))
              (P * f.chunks) (listFor f.chunks n 0) with
          | some ip =>
            obtain ⟨i, pt0⟩ := ip
            rw [h3] at hsel
            dsimp only at hsel
            rw [Option.some.injEq, Prod.mk.injEq, Prod.mk.injEq] at hsel
            obtain ⟨hfe, hpe, hwe⟩ := hsel
            exact Or.inr (Or.inr (Or.inl
              ⟨rfl, fun _ => rfl, ⟨i, by rw [hpe]⟩, hwe.symm⟩))
          | none =>
            rw [h3] at hsel
            dsimp only at hsel
            cases h4 : getLeast (f.released (densityFor f.separate dense))
                (P * f.chunks) (listFor f.chunks n 0) with
            | some ip =>
              obtain ⟨i, pt0⟩ := ip
              rw [h4] at hsel
              dsimp only at hsel
              rw [Option.some.injEq, Prod.mk.injEq, Prod.mk.injEq] at hsel
              obtain ⟨hfe, hpe, hwe⟩ := hsel
              exact Or.inr (Or.inr (Or.inr
                ⟨rfl, fun _ => rfl, rfl, ⟨i, by rw [hpe]⟩, hwe.symm⟩))
            | none =>
              rw [h4] at hsel
              cases hsel
      · rw [if_neg hd2] at hsel
        dsimp only at hsel
        cases h3 : getLeast (f.partReleased (densityFor f.separate dense))
            (P * f.chunks) (listFor f.chunks n 0) with
        | some ip =>
          obtain ⟨i, pt0⟩ := ip
          rw [h3] at hsel
          dsimp only at hsel
          rw [Option.some.injEq, Prod.mk.injEq, Prod.mk.injEq] at hsel
          obtain ⟨hfe, hpe, hwe⟩ := hsel
          exact Or.inr (Or.inr (Or.inl
            ⟨rfl, fun hc => absurd hc hd2, ⟨i, by rw [hpe]⟩, hwe.symm⟩))
        | none =>
          rw [h3] at hsel
          dsimp only at hsel
          cases h4 : getLeast (f.released (densityFor f.separate dense))
              (P * f.chunks) (listFor f.chunks n 0) with
          | some ip =>
            obtain ⟨i, pt0⟩ := ip
            rw [h4] at hsel
            dsimp only at hsel
            rw [Option.some.injEq, Prod.mk.injEq, Prod.mk.injEq] at hsel
            obtain ⟨hfe, hpe, hwe⟩ := hsel
            exact Or.inr (Or.inr (Or.inr
              ⟨rfl, fun hc => absurd hc hd2, rfl, ⟨i, by rw [hpe]⟩, hwe.symm⟩))
          | none =>
            rw [h4] at hsel
            cases hsel

/-- Witness for claim C1 on the empty one-chunk filler. -/
theorem tryGet_search_order_witness :
    0 < (1 : Nat) ∧ 0 < fillerW.chunks ∧ BinnedInv 2 fillerW ∧
    ((Filler.tryGet 2 fillerW 1 false).1 = none ↔
      tryGetSelect 2 fillerW 1 (densityFor fillerW.separate false) = none) := by
  have hinv : BinnedInv 2 fillerW := by
    refine ⟨fun d i pt h => ?_, fun i pt h => ?_, fun d i pt h => ?_,
      fun d i pt h => ?_⟩ <;> simp [fillerW] at h
  exact ⟨by decide, by decide, hinv,
    (tryGet_search_order 2 1 fillerW false (by decide) (by decide) hinv).2.1⟩

end TCM
